import Mathlib

/-!
Verification of the DOCX report-generation engine
(`src/core/placeholder_engine.py`, `src/core/image_replacer.py`,
`generar_informe.py`) against its natural-language specification.

The Python code is shallowly embedded: documents become inductive data,
in-place mutation becomes explicit state passing, Python exceptions become
`Except`, and the few string primitives the code relies on
(`str.replace`, `in`, `re.findall` with the fixed placeholder pattern)
are reimplemented character by character with Python's semantics.
-/

namespace Docx

/-! ## Characters and Python-style string primitives -/

/-- Left curly brace character (written via its code point). -/
def braceL : Char := Char.ofNat 123

/-- Right curly brace character (written via its code point). -/
def braceR : Char := Char.ofNat 125

/-- Character class `[a-zA-Z0-9_]` of the placeholder pattern
`PLACEHOLDER_PATTERN = r'\{\{([a-zA-Z0-9_]+)\}\}'` (placeholder_engine.py line 19). -/
def isWordChar (c : Char) : Bool :=
  (('a' ≤ c && c ≤ 'z') || ('A' ≤ c && c ≤ 'Z') || ('0' ≤ c && c ≤ '9') || c = '_')

/-- The token text of a placeholder name: Python `f"{'{{'}{key}{'}}'}"`,
i.e. the name surrounded by double braces. -/
def tok (k : String) : String :=
  ⟨braceL :: braceL :: (k.toList ++ [braceR, braceR])⟩

/-- The token text of a nested field placeholder, base `k` and field `f`. -/
def nestedTok (k f : String) : String :=
  ⟨braceL :: braceL :: (k.toList ++ '.' :: f.toList ++ [braceR, braceR])⟩

/-- Substring test on character lists: does `pat` occur inside `s`?
Embeds Python's `pat in s`. -/
def hasInfixL (pat : List Char) : List Char → Bool
  | [] => pat.isEmpty
  | c :: rest => pat.isPrefixOf (c :: rest) || hasInfixL pat rest

/-- Python `pat in s` on strings. -/
def pyContains (s pat : String) : Bool := hasInfixL pat.toList s.toList

/-- Worker for `pyReplace`, with explicit fuel (the fuel is the length of the
scanned list, so the `0, s` fallback is unreachable); replaces every
non-overlapping occurrence of `pat`, scanning left to right, exactly as
Python's `str.replace` does for a non-empty pattern. -/
def replFuel (pat rep : List Char) : Nat → List Char → List Char
  | _, [] => []
  | 0, s => s
  | Nat.succ fuel, c :: rest =>
    if pat.isPrefixOf (c :: rest) then
      rep ++ replFuel pat rep fuel (List.drop (pat.length - 1) rest)
    else
      c :: replFuel pat rep fuel rest

/-- Python `s.replace(pat, rep)` (the code never calls it with an empty
pattern; for an empty pattern we return `s` unchanged). -/
def pyReplace (s pat rep : String) : String :=
  if pat.isEmpty then s
  else ⟨replFuel pat.toList rep.toList s.toList.length s.toList⟩

/-! ## The placeholder token grammar -/

/-- Try to match `PLACEHOLDER_PATTERN` at the head of the list: two opening
braces, a maximal non-empty run of word characters, two closing braces.
Returns the captured name and the remainder after the match.  This is what
Python's regex engine does at one position: the greedy `[a-zA-Z0-9_]+`
cannot backtrack usefully because a shorter run leaves a word character
where `}` is required. -/
def tokAt : List Char → Option (List Char × List Char)
  | c1 :: c2 :: rest =>
    if c1 = braceL && c2 = braceL then
      match rest.takeWhile isWordChar, rest.dropWhile isWordChar with
      | [], _ => none
      | a :: as, d1 :: d2 :: r3 =>
        if d1 = braceR && d2 = braceR then some (a :: as, r3) else none
      | _ :: _, _ => none
    else none
  | _ => none

/-- Worker for the token scan, with fuel (again the list length). On a match
the scan continues after the matched token, as `re.findall` does. -/
def scanFuel : Nat → List Char → List (List Char)
  | 0, _ => []
  | _ + 1, [] => []
  | fuel + 1, c :: rest =>
    match tokAt (c :: rest) with
    | some (name, r3) => name :: scanFuel fuel r3
    | none => scanFuel fuel rest

/-- All placeholder names found in a string by
`re.findall(PLACEHOLDER_PATTERN, s)`, in match order. -/
def scanStr (s : String) : List String :=
  (scanFuel s.toList.length s.toList).map (fun cs => ⟨cs⟩)

/-- `pattern.search(s)` of the engine: does the string contain at least one
complete placeholder token? -/
def hasTokenStr (s : String) : Bool := !(scanStr s).isEmpty

/-- The characters of the token of name `n`. -/
def tokChars (n : List Char) : List Char := braceL :: braceL :: (n ++ [braceR, braceR])

/-- Declarative reading of the token grammar `\{\{[A-Za-z0-9_]+\}\}` taken
from the specification: name `n` occurs in `s` when it is a non-empty word
and `{{n}}` is a substring of `s`.  This is the spec-side definition matched
against the scanning implementation. -/
def SpecTokenIn (s n : String) : Prop :=
  n.toList ≠ [] ∧ (∀ c ∈ n.toList, isWordChar c = true) ∧ tokChars n.toList <:+: s.toList

end Docx

namespace Docx

/-! ## Document model

python-docx objects, restricted to what the engine reads and writes:
a `Run` is a text plus an opaque formatting record, a `Para` is a style plus
runs (the `id` field stands for lxml element identity, used by
`list(parent).index(para._element)`), a table is the `w:tbl` element's child
list (`w:tblPr`/`w:tblGrid` appear as `other` entries before the `w:tr`
rows), and a document is a body (paragraphs, tables and other block items in
order) plus sections with optional header/footer paragraph lists. -/

/-- A run: atomic styled text. `fmt` abstracts the whole formatting record;
the engine never writes it. -/
structure Run where
  text : String
  fmt : Nat
  deriving DecidableEq, Repr

/-- A paragraph. `id` models lxml element identity (fresh paragraphs created
during expansion carry `none`); `style` abstracts the paragraph style and
format. -/
structure Para where
  id : Option Nat
  style : Nat
  runs : List Run
  deriving DecidableEq, Repr

/-- `para.text`: concatenation of the run texts. -/
def Para.text (p : Para) : String := String.join (p.runs.map Run.text)

/-- A run holding `text` with default formatting, as created by
`para.add_run(text)` after `para.clear()` (or by the `para.text` setter). -/
def mkRun (text : String) : Run := ⟨text, 0⟩

/-- A fresh paragraph created by `document.add_paragraph(text)` with a style
assigned afterwards. -/
def newPara (text : String) (style : Nat) : Para := ⟨none, style, [mkRun text]⟩

/-- A table cell: its paragraphs. (The source also reads `cell.width` into
`cell_formats` but never uses it, so it is not modelled.) -/
abbrev Cell := List Para

/-- `cell.text`: paragraph texts joined by newlines. -/
def cellText (c : Cell) : String := String.intercalate "\n" (c.map Para.text)

/-- A table row: its cells. -/
abbrev Row := List Cell

/-- A child of the `w:tbl` element: either a `w:tr` row or some other element
(`w:tblPr`, `w:tblGrid`, ...). `tbl.insert(i, tr)` indexes this list. -/
inductive TblChild where
  | other : TblChild
  | tr : Row → TblChild
  deriving DecidableEq, Repr

/-- A table: the `w:tbl` element's children. -/
structure Table where
  children : List TblChild
  deriving DecidableEq, Repr

/-- `tbl.tr_lst` / `table.rows`: the `w:tr` children in order. -/
def Table.rows (t : Table) : List Row :=
  t.children.filterMap (fun ch => match ch with | .tr r => some r | .other => none)

/-- A top-level child of the document body. -/
inductive BodyChild where
  | par : Para → BodyChild
  | tbl : Table → BodyChild
  | other : BodyChild
  deriving DecidableEq, Repr

/-- A section: optional header and footer, each a paragraph list. -/
structure Sect where
  header : Option (List Para)
  footer : Option (List Para)
  deriving DecidableEq, Repr

/-- A document: body children in order, plus the sections. -/
structure Doc where
  body : List BodyChild
  sections : List Sect
  deriving DecidableEq, Repr

/-- The top-level paragraphs of a body child list. -/
def parasOf (body : List BodyChild) : List Para :=
  body.filterMap (fun ch => match ch with | .par p => some p | _ => none)

/-- The top-level tables of a body child list. -/
def bodyTables (body : List BodyChild) : List Table :=
  body.filterMap (fun ch => match ch with | .tbl t => some t | _ => none)

/-- `document.paragraphs`: the body's top-level paragraphs. -/
def Doc.paragraphs (d : Doc) : List Para := parasOf d.body

/-- `document.tables`: the body's top-level tables. -/
def Doc.tables (d : Doc) : List Table := bodyTables d.body

/-! ## PlaceholderEngine (placeholder_engine.py) -/

/-- Scalar replacement data: the Python dict, as an insertion-ordered list of
key/value pairs (the engine only iterates it and tests membership). -/
abbrev ScalarData := List (String × String)

/-- All paragraph texts scanned by `find_all_placeholders`, in source
traversal order: body paragraphs, then table cells (row by row, cell by
cell, paragraph by paragraph), then each section's header and footer. -/
def docScanTexts (d : Doc) : List String :=
  (d.paragraphs.map Para.text)
    ++ (d.tables.flatMap fun t =>
        t.rows.flatMap fun r => r.flatMap fun c => c.map Para.text)
    ++ (d.sections.flatMap fun s =>
        ((s.header.getD []).map Para.text) ++ ((s.footer.getD []).map Para.text))

/-- `PlaceholderEngine.find_all_placeholders`: every placeholder name found
by the pattern in body, tables, headers and footers.  The Python function
returns a `set`; we keep the duplicates-allowed list and state results by
membership. -/
def find_all_placeholders (d : Doc) : List String :=
  (docScanTexts d).flatMap scanStr

/-- The `missing` component of `PlaceholderEngine.validate_data`: names found
in the document with no entry in the data. -/
def missingNames (d : Doc) (data : ScalarData) : List String :=
  (find_all_placeholders d).filter (fun n => !(data.any (fun kv => kv.1 = n)))

/-- The per-string replacement loop shared by `_replace_in_runs` and the
non-format-preserving branch of `_replace_in_paragraphs`:
for each `key, value` in the data, if `{{key}}` occurs in the current text it
is replaced (all occurrences at once, by `str.replace`) and the counter is
incremented by one. -/
def replaceKeys : ScalarData → String → String × Nat
  | [], s => (s, 0)
  | kv :: rest, s =>
    if pyContains s (tok kv.1) then
      let r := replaceKeys rest (pyReplace s (tok kv.1) kv.2)
      (r.1, r.2 + 1)
    else replaceKeys rest s

/-- `PlaceholderEngine._replace_in_runs`: runs whose text contains no
complete token are skipped; the others get the per-key replacement applied
to their text, formatting untouched.  Returns the new runs and the count. -/
def replace_in_runs (data : ScalarData) : List Run → List Run × Nat
  | [] => ([], 0)
  | r :: rest =>
    let tail := replace_in_runs data rest
    if hasTokenStr r.text then
      let tc := replaceKeys data r.text
      ({ r with text := tc.1 } :: tail.1, tc.2 + tail.2)
    else
      (r :: tail.1, tail.2)

/-- The per-paragraph step of `PlaceholderEngine._replace_in_paragraphs`:
paragraphs whose full text has no token are left alone; otherwise either the
run-preserving replacement runs, or (non-preserving mode) the whole
paragraph text is rewritten and collapsed into a single run by the
`para.text` setter. -/
def replacePara (data : ScalarData) (preserve_format : Bool) (p : Para) : Para × Nat :=
  if !hasTokenStr p.text then (p, 0)
  else if preserve_format then
    let rc := replace_in_runs data p.runs
    ({ p with runs := rc.1 }, rc.2)
  else
    let tc := replaceKeys data p.text
    ({ p with runs := [mkRun tc.1] }, tc.2)

/-- `_replace_in_paragraphs` over a paragraph list: each paragraph mutated in
place, counts summed. -/
def replaceParas (data : ScalarData) (pf : Bool) : List Para → List Para × Nat
  | [] => ([], 0)
  | p :: rest =>
    let pc := replacePara data pf p
    let acc := replaceParas data pf rest
    (pc.1 :: acc.1, pc.2 + acc.2)

/-- Cell-by-cell replacement in one row. -/
def replaceCells (data : ScalarData) (pf : Bool) : Row → Row × Nat
  | [] => ([], 0)
  | c :: rest =>
    let cc := replaceParas data pf c
    let acc := replaceCells data pf rest
    (cc.1 :: acc.1, cc.2 + acc.2)

/-- Row-by-row replacement over a table's children. -/
def replaceTblChildren (data : ScalarData) (pf : Bool) : List TblChild → List TblChild × Nat
  | [] => ([], 0)
  | .tr r :: rest =>
    let rc := replaceCells data pf r
    let acc := replaceTblChildren data pf rest
    (TblChild.tr rc.1 :: acc.1, rc.2 + acc.2)
  | .other :: rest =>
    let acc := replaceTblChildren data pf rest
    (TblChild.other :: acc.1, acc.2)

/-- `PlaceholderEngine._replace_in_table`: replacement in every cell of every
row. -/
def replace_in_table (data : ScalarData) (pf : Bool) (t : Table) : Table × Nat :=
  let folded := replaceTblChildren data pf t.children
  (⟨folded.1⟩, folded.2)

/-- Replacement over one optional header or footer part. -/
def replacePart (data : ScalarData) (pf : Bool) :
    Option (List Para) → Option (List Para) × Nat
  | none => (none, 0)
  | some ps => let pc := replaceParas data pf ps; (some pc.1, pc.2)

/-- Replacement over the body children (body paragraphs and tables). -/
def replaceBody (data : ScalarData) (pf : Bool) : List BodyChild → List BodyChild × Nat
  | [] => ([], 0)
  | .par p :: rest =>
    let pc := replacePara data pf p
    let acc := replaceBody data pf rest
    (BodyChild.par pc.1 :: acc.1, pc.2 + acc.2)
  | .tbl t :: rest =>
    let tc := replace_in_table data pf t
    let acc := replaceBody data pf rest
    (BodyChild.tbl tc.1 :: acc.1, tc.2 + acc.2)
  | .other :: rest =>
    let acc := replaceBody data pf rest
    (BodyChild.other :: acc.1, acc.2)

/-- Replacement over the sections (headers and footers). -/
def replaceSections (data : ScalarData) (pf : Bool) : List Sect → List Sect × Nat
  | [] => ([], 0)
  | s :: rest =>
    let hc := replacePart data pf s.header
    let fc := replacePart data pf s.footer
    let acc := replaceSections data pf rest
    (⟨hc.1, fc.1⟩ :: acc.1, hc.2 + fc.2 + acc.2)

/-- `PlaceholderEngine.replace_all`: validates first and, in strict mode with
missing names, raises `ValueError` (modelled as `Except.error` carrying the
missing names) before anything is touched; otherwise replaces through body
paragraphs, tables, headers and footers and returns the total count. -/
def replace_all (d : Doc) (data : ScalarData) (strict preserve_format : Bool) :
    Except (List String) (Doc × Nat) :=
  let missing := missingNames d data
  if strict && !missing.isEmpty then
    .error missing
  else
    let bodyFold := replaceBody data preserve_format d.body
    let sectFold := replaceSections data preserve_format d.sections
    .ok (⟨bodyFold.1, sectFold.1⟩, bodyFold.2 + sectFold.2)

/-! ## DynamicContentProcessor (generar_informe.py)

Array-valued data drives the two expansion passes.  A JSON value routed to
the processor is either a scalar string or an array whose items are strings
(list expansion) or flat string-valued objects (table row expansion). -/

/-- An element of an array value. -/
inductive PyItem where
  | istr : String → PyItem
  | iobj : List (String × String) → PyItem
  deriving DecidableEq, Repr

/-- Python `str(item)` for the items that occur in the data; the engine only
ever stringifies the string items in the scenarios we verify, but the
object case is rendered Python-style for totality. -/
def strOfItem : PyItem → String
  | .istr s => s
  | .iobj f => "dict(" ++ String.intercalate ", " (f.map fun kv => kv.1 ++ ": " ++ kv.2) ++ ")"

/-- A JSON value of the data payload. -/
inductive PyVal where
  | vstr : String → PyVal
  | vlist : List PyItem → PyVal
  deriving DecidableEq, Repr

/-- The data mapping handed to the processor. -/
abbrev DynData := List (String × PyVal)

/-- The bullet rendering `f"• {text}"`. -/
def bullet (s : String) : String := "• " ++ s

/-- One collected work item of `expand_dynamic_lists`: the matched
paragraph's identity, the matched key and its array items. -/
structure ListEntry where
  pid : Option Nat
  key : String
  items : List PyItem
  deriving DecidableEq, Repr

/-- The collection loop of `expand_dynamic_lists`: for each body paragraph in
order, for each data entry in order, record the paragraph when the value is
an array and the paragraph text contains the key's token. -/
def collectEntries (body : List BodyChild) (data : DynData) : List ListEntry :=
  (parasOf body).flatMap
    fun p =>
      data.filterMap fun kv =>
        match kv.2 with
        | .vlist items =>
          if pyContains p.text (tok kv.1) then some ⟨p.id, kv.1, items⟩ else none
        | .vstr _ => none

/-- `list(parent).index(para._element)` for the paragraph recorded in an
entry: position of the body child that is a paragraph with that identity. -/
def findIdxById : List BodyChild → Option Nat → Option Nat
  | [], _ => none
  | ch :: rest, pid =>
    if (match ch with | BodyChild.par p => p.id == pid && pid != none | _ => false) then
      some 0
    else (findIdxById rest pid).map (· + 1)

/-- Replace the paragraph at a body position (leaves the body unchanged when
the position is not a paragraph). -/
def setParaAt : List BodyChild → Nat → (Para → Para) → List BodyChild
  | [], _, _ => []
  | BodyChild.par p :: rest, 0, f => BodyChild.par (f p) :: rest
  | ch :: rest, 0, _ => ch :: rest
  | ch :: rest, Nat.succ n, f => ch :: setParaAt rest n f

/-- Splice a list of new children in at a position: the net effect of the
source's successive `parent.insert(para_index + 1, ...)` calls with the
index incremented after each insertion. -/
def spliceAt (body : List BodyChild) (pos : Nat) (items : List BodyChild) :
    List BodyChild :=
  body.take pos ++ items ++ body.drop pos

/-- The body of the processing loop of `expand_dynamic_lists` for one
recorded entry: locate the paragraph by element identity; with an empty
array strip the token from its text (the `para.text` setter collapses the
runs); otherwise clear it, write the bulleted first item, and insert one new
bulleted paragraph per remaining item right after it, carrying the template
paragraph's style. -/
def processListEntry (body : List BodyChild) (e : ListEntry) : List BodyChild :=
  match findIdxById body e.pid with
  | none => body
  | some i =>
    match e.items with
    | [] =>
      setParaAt body i fun p =>
        { p with runs := [mkRun (pyReplace p.text (tok e.key) "")] }
    | first :: rest =>
      let body1 := setParaAt body i fun p =>
        { p with runs := [mkRun (bullet (strOfItem first))] }
      let style := match body.get? i with
        | some (.par p) => p.style
        | _ => 0
      spliceAt body1 (i + 1) (rest.map fun it => BodyChild.par (newPara (bullet (strOfItem it)) style))

/-- `DynamicContentProcessor.expand_dynamic_lists`: collect the matching
(paragraph, key) pairs, process them in reverse collection order, and
return the number of non-empty lists expanded. -/
def expand_dynamic_lists (d : Doc) (data : DynData) : Doc × Nat :=
  let entries := collectEntries d.body data
  let body1 := entries.reverse.foldl processListEntry d.body
  ({ d with body := body1 }, (entries.filter (fun e => !e.items.isEmpty)).length)

/-- The first item's field names, used by the template-row match
(`value[0].keys()`). -/
def firstFields : List PyItem → List String
  | .iobj f :: _ => f.map Prod.fst
  | _ => []

/-- Does a data entry qualify for table expansion and match a row?  The
source requires a non-empty array whose first element is a dict, and a cell
whose text contains `{{key}}` or `{{key.field}}` for some field of the
first element. -/
def rowMatchKey (k : String) (items : List PyItem) (r : Row) : Bool :=
  (match items with | .iobj _ :: _ => true | _ => false)
  && r.any fun c =>
       pyContains (cellText c) (tok k)
       || (firstFields items).any fun f => pyContains (cellText c) (nestedTok k f)

/-- The template-row search of `expand_dynamic_tables`: first row (in order)
matched by any data entry; within that row the *last* matching data entry
wins, because the key loop keeps overwriting the found variables (the inner
`break` only leaves the cell loop). -/
def findTemplate (data : DynData) : List Row → Option (Nat × String × List PyItem)
  | [] => none
  | r :: rest =>
    let hit := data.foldl
      (fun acc kv =>
        match kv.2 with
        | .vlist items => if rowMatchKey kv.1 items r then some (kv.1, items) else acc
        | .vstr _ => acc)
      none
    match hit with
    | some (k, items) => some (0, k, items)
    | none => (findTemplate data rest).map (fun t => (t.1 + 1, t.2.1, t.2.2))

/-- `cell_formats`: the template row's cell texts, captured before the row is
overwritten. -/
def cellFormats (r : Row) : List String := r.map cellText

/-- The text for one cell of a data row: field placeholders `{{key.field}}`
and bare `{{field}}` replaced by the field value, in field order. -/
def renderCellText (template : String) (fields : List (String × String)) (key : String) :
    String :=
  fields.foldl
    (fun acc fv => pyReplace (pyReplace acc (nestedTok key fv.1) fv.2) (tok fv.1) fv.2)
    template

/-- The cell loop of `_fill_row_with_data` (`for idx, cell in
enumerate(row.cells)`), with the running index explicit: for each cell index
below the captured format count, render the text and write it into the
cell's first paragraph (`para.clear(); para.add_run(new_text); break` —
later paragraphs stay). -/
def fillCells (fmts : List String) (fields : List (String × String)) (key : String) :
    Nat → List Cell → List Cell
  | _, [] => []
  | i, c :: rest =>
    (if i < fmts.length then
      match c with
      | [] => ([] : Cell)
      | p :: ps =>
        { p with runs := [mkRun (renderCellText (fmts.getD i "") fields key)] } :: ps
     else c) :: fillCells fmts fields key (i + 1) rest

/-- `_fill_row_with_data` on one row. -/
def fillRow (fmts : List String) (item : PyItem) (key : String) (r : Row) : Row :=
  fillCells fmts (match item with | .iobj f => f | .istr _ => []) key 0 r

/-- Apply a function to the `i`-th `w:tr` child of a table. -/
def modifyRow : List TblChild → Nat → (Row → Row) → List TblChild
  | [], _, _ => []
  | TblChild.tr r :: rest, 0, f => TblChild.tr (f r) :: rest
  | TblChild.tr r :: rest, Nat.succ n, f => TblChild.tr r :: modifyRow rest n f
  | TblChild.other :: rest, n, f => TblChild.other :: modifyRow rest n f

/-- `_fill_row_with_data` applied to the row at row index `i`. -/
def fillRowAt (t : Table) (i : Nat) (fmts : List String) (item : PyItem) (key : String) :
    Table :=
  ⟨modifyRow t.children i (fillRow fmts item key)⟩

/-- `_add_table_row(table, position)`: deep-copy the row `tr_lst[position-1]`
(`tr_lst[0]` for position 0) and insert the copy at **child** index
`position` of the `w:tbl` element — `tbl.insert` counts every child,
including `w:tblPr`/`w:tblGrid`, which is why clones land in front of the
existing rows. -/
def add_table_row (t : Table) (position : Nat) : Table :=
  let src := t.rows.getD (position - 1) []
  ⟨t.children.insertIdx position (TblChild.tr src)⟩

/-- `_expand_table_rows`: fill the template row in place with the first data
item, then for each remaining item insert a clone at position
`template_row_idx + 1` and fill the row found at row index
`template_row_idx + 1` afterwards (the source's `table.rows[position]`). -/
def expand_table_rows (t : Table) (tIdx : Nat) (rowsData : List PyItem) (key : String) :
    Table :=
  match rowsData with
  | [] => t
  | first :: rest =>
    let fmts := cellFormats (t.rows.getD tIdx [])
    let t1 := fillRowAt t tIdx fmts first key
    rest.foldl
      (fun acc item => fillRowAt (add_table_row acc (tIdx + 1)) (tIdx + 1) fmts item key)
      t1

/-- One body child of the `expand_dynamic_tables` walk: a table with a
template row is expanded (and counted), everything else is kept. -/
def expandTableChild (data : DynData) (ch : BodyChild) (acc : List BodyChild × Nat) :
    List BodyChild × Nat :=
  match ch with
  | .tbl t =>
    (match findTemplate data t.rows with
     | some (tIdx, k, items) =>
       (BodyChild.tbl (expand_table_rows t tIdx items k) :: acc.1, acc.2 + 1)
     | none => (BodyChild.tbl t :: acc.1, acc.2))
  | x => (x :: acc.1, acc.2)

/-- `DynamicContentProcessor.expand_dynamic_tables`: every body table with a
template row is expanded; returns the new document and the table count. -/
def expand_dynamic_tables (d : Doc) (data : DynData) : Doc × Nat :=
  let folded := d.body.foldr (expandTableChild data) ([], 0)
  ({ d with body := folded.1 }, folded.2)

/-! ## Spec-side view of list expansion -/

/-- What one expansion site becomes, per the specification: an empty array
strips the token from the paragraph; a non-empty array turns the site into
one bulleted paragraph per element, the first reusing the template
paragraph (identity and style kept), the rest fresh paragraphs carrying the
template's style. -/
def expandSite (k : String) (es : List PyItem) (p : Para) : List BodyChild :=
  match es with
  | [] => [.par { p with runs := [mkRun (pyReplace p.text (tok k) "")] }]
  | first :: rest =>
    .par { p with runs := [mkRun (bullet (strOfItem first))] }
      :: rest.map (fun it => BodyChild.par (newPara (bullet (strOfItem it)) p.style))

/-- Spec-side list expansion of a whole body for one array-valued name:
every top-level paragraph whose text contains the token becomes its
expansion site; everything else is untouched and keeps its relative
order. -/
def expandBody (k : String) (es : List PyItem) (body : List BodyChild) : List BodyChild :=
  body.flatMap fun ch =>
    match ch with
    | .par p => if pyContains p.text (tok k) then expandSite k es p else [BodyChild.par p]
    | x => [x]

/-- The entries `expand_dynamic_lists` collects when the data holds exactly
one array-valued name. -/
def siteEntries (k : String) (es : List PyItem) (body : List BodyChild) : List ListEntry :=
  (parasOf body).filterMap fun p =>
    if pyContains p.text (tok k) then some ⟨p.id, k, es⟩ else none

/-- Element identity is modelled soundly: every top-level paragraph carries
an id and no two share one. -/
def idsOk (body : List BodyChild) : Prop :=
  (∀ p ∈ parasOf body, p.id ≠ none) ∧ ((parasOf body).map Para.id).Nodup

/-! ## ImageReplacer (image_replacer.py)

The replacer works on the package's relationship tables: each part (body,
header, footer) owns a list of relationships `rel_id → Rel`; an image
relationship's target part carries the binary blob and content type.  The
embedding drawing elements (extent, inline-vs-anchor wrapping, position)
live separately in the part and are only read, never written, by
`replace_*`. -/

/-- Image bytes. -/
abbrev Bytes := List Nat

/-- The target media part of an image relationship: `image_part._blob` and
`image_part.content_type`. -/
structure Media where
  blob : Bytes
  content_type : String
  deriving DecidableEq, Repr

/-- A relationship: its type string and its target media part. -/
structure Rel where
  reltype : String
  target : Media
  deriving DecidableEq, Repr

/-- An embedding drawing element, as cached by the scanner: extent in EMU,
inline versus anchor, and an opaque stand-in for everything else (position,
wrapping, ...). -/
structure Drawing where
  extentCx : Option Nat
  extentCy : Option Nat
  isInline : Bool
  payload : Nat
  deriving DecidableEq, Repr

/-- One part: its relationships (an ordered rel-id → relationship table) and
its drawing elements. -/
structure ImgPart where
  rels : List (String × Rel)
  drawings : List Drawing
  deriving DecidableEq, Repr

/-- A section as the replacer sees it. -/
structure ImgSect where
  header : Option ImgPart
  footer : Option ImgPart
  deriving DecidableEq, Repr

/-- The document as the replacer sees it. -/
structure ImgDoc where
  body : ImgPart
  sections : List ImgSect
  deriving DecidableEq, Repr

/-- The file system: readable paths and their bytes. -/
abbrev FS := List (String × Bytes)

/-- Read a file; `none` both for a missing path (`Path.exists()` false) and
for the purposes of the existence check. -/
def fsRead (fs : FS) (path : String) : Option Bytes :=
  (fs.find? (fun e => e.1 = path)).map Prod.snd

/-- Python `int(s)` on the underscore-free fragments produced by
`key.split('_')`: optional sign, then digits; anything else raises
(`none`). -/
def pyInt? (s : String) : Option Int :=
  let chars := s.toList
  let core : Option (Bool × List Char) :=
    match chars with
    | '-' :: rest => some (true, rest)
    | '+' :: rest => some (false, rest)
    | rest => some (false, rest)
  match core with
  | some (neg, ds) =>
    if ds ≠ [] && ds.all Char.isDigit then
      let n : Nat := ds.foldl (fun acc c => acc * 10 + (c.toNat - '0'.toNat)) 0
      some (if neg then -(n : Int) else (n : Int))
    else none
  | none => none

/-- Python list indexing with a possibly negative index: `l[i]` resolves to
position `i` (or `len l + i` when negative) and raises `IndexError`
otherwise. -/
def pyIdx (len : Nat) (i : Int) : Option Nat :=
  if 0 ≤ i then (if i < (len : Int) then some i.toNat else none)
  else (if -(len : Int) ≤ i then some (len - (-i).toNat) else none)

/-- `'image' in rel.reltype` filter over a relationship table. -/
def imageRels (rels : List (String × Rel)) : List (String × Rel) :=
  rels.filter (fun e => pyContains e.2.reltype "image")

/-- Replace the target media of the `j`-th image relationship (counting only
image relationships) with the result of `f` applied to it, leaving every
other relationship untouched. -/
def updateNthImageRel (f : Media → Media) : List (String × Rel) → Nat → List (String × Rel)
  | [], _ => []
  | e :: rest, j =>
    if pyContains e.2.reltype "image" then
      match j with
      | 0 => (e.1, { e.2 with target := f e.2.target }) :: rest
      | Nat.succ j2 => e :: updateNthImageRel f rest j2
    else e :: updateNthImageRel f rest j

/-- `Path(p).suffix.lower()`: the (lowercased) extension of the final path
component, empty when the final component has no dot-separated extension. -/
def pathSuffixLower (p : String) : String :=
  let name := (p.toList.reverse.takeWhile (fun c => c ≠ '/')).reverse
  let revName := name.reverse
  let ext := revName.takeWhile (fun c => c ≠ '.')
  if ext.length < revName.length && ext.length + 1 < name.length && 0 < ext.length then
    ⟨('.' :: ext.reverse).map Char.toLower⟩
  else ""

/-- The extension → content-type table of `_update_content_type`. -/
def contentTypes : List (String × String) :=
  [(".png", "image/png"), (".jpg", "image/jpeg"), (".jpeg", "image/jpeg"),
   (".gif", "image/gif"), (".bmp", "image/bmp"), (".tiff", "image/tiff"),
   (".tif", "image/tiff")]

/-- `ImageReplacer._update_content_type`: set the content type when the new
file's extension is recognized, otherwise leave it alone (no failure). -/
def update_content_type (m : Media) (path : String) : Media :=
  match (contentTypes.find? (fun e => e.1 = pathSuffixLower path)).map Prod.snd with
  | some ct => { m with content_type := ct }
  | none => m

/-- The blob-and-content-type swap shared by the three `replace_*`
operations. -/
def swapMedia (data : Bytes) (path : String) (m : Media) : Media :=
  update_content_type { m with blob := data, content_type := m.content_type } path

/-- `ImageReplacer.replace_header_image`.  `Except.error` models an uncaught
Python exception (only reachable through negative indices below `-len`);
`(false, d)` is the logged-and-return-False path; mutation happens last. -/
def replace_header_image (d : ImgDoc) (fs : FS) (section_idx : Int) (path : String)
    (image_index : Int) : Except String (Bool × ImgDoc) :=
  if (d.sections.length : Int) ≤ section_idx then .ok (false, d)
  else match fsRead fs path with
  | none => .ok (false, d)
  | some data =>
    match pyIdx d.sections.length section_idx with
    | none => .error "IndexError"
    | some si =>
      let sect := d.sections.getD si ⟨none, none⟩
      match sect.header with
      | none => .ok (false, d)
      | some hd =>
        let irels := imageRels hd.rels
        if (irels.length : Int) ≤ image_index then .ok (false, d)
        else match pyIdx irels.length image_index with
        | none => .error "IndexError"
        | some j =>
          let hd' := { hd with rels := updateNthImageRel (swapMedia data path) hd.rels j }
          .ok (true, { d with sections := d.sections.set si { sect with header := some hd' } })

/-- `ImageReplacer.replace_footer_image` (same shape, on the footer part). -/
def replace_footer_image (d : ImgDoc) (fs : FS) (section_idx : Int) (path : String)
    (image_index : Int) : Except String (Bool × ImgDoc) :=
  if (d.sections.length : Int) ≤ section_idx then .ok (false, d)
  else match fsRead fs path with
  | none => .ok (false, d)
  | some data =>
    match pyIdx d.sections.length section_idx with
    | none => .error "IndexError"
    | some si =>
      let sect := d.sections.getD si ⟨none, none⟩
      match sect.footer with
      | none => .ok (false, d)
      | some ft =>
        let irels := imageRels ft.rels
        if (irels.length : Int) ≤ image_index then .ok (false, d)
        else match pyIdx irels.length image_index with
        | none => .error "IndexError"
        | some j =>
          let ft' := { ft with rels := updateNthImageRel (swapMedia data path) ft.rels j }
          .ok (true, { d with sections := d.sections.set si { sect with footer := some ft' } })

/-- `ImageReplacer.replace_body_image_by_index`. -/
def replace_body_image_by_index (d : ImgDoc) (fs : FS) (image_index : Int)
    (path : String) : Except String (Bool × ImgDoc) :=
  match fsRead fs path with
  | none => .ok (false, d)
  | some data =>
    let irels := imageRels d.body.rels
    if (irels.length : Int) ≤ image_index then .ok (false, d)
    else match pyIdx irels.length image_index with
    | none => .error "IndexError"
    | some j =>
      .ok (true, { d with body :=
        { d.body with rels := updateNthImageRel (swapMedia data path) d.body.rels j } })

/-- Split a character list at every occurrence of the separator; the
result always has at least one (possibly empty) group. -/
def splitChars (sep : Char) : List Char → List (List Char)
  | [] => [[]]
  | c :: rest =>
    let r := splitChars sep rest
    if c = sep then [] :: r
    else
      match r with
      | [] => [[c]]
      | g :: gs => (c :: g) :: gs

/-- Python `s.split(sep)` for a one-character separator: `"".split` gives
`[""]`, adjacent separators give empty groups. -/
def pySplit (s : String) (sep : Char) : List String :=
  (splitChars sep s.toList).map fun cs => ⟨cs⟩

/-- The dispatch of one `replace_images_batch` key before the `try/except`:
parse the positional key by the `location_sectionIdx_localIdx` /
`location_localIdx` convention (`key.split('_')`, `parts[0]` compared
against the three known locations) and run the single-item operation.
`Except.error` models an uncaught `IndexError`/`ValueError` inside the try
block. -/
def batchResult (d : ImgDoc) (fs : FS) (key path : String) :
    Except String (Bool × ImgDoc) :=
  match pySplit key '_' with
  | [] => .ok (false, d)
  | location :: rest =>
    if location = "header" then
      match rest with
      | [] => .error "IndexError"
      | p1 :: rest2 =>
        match pyInt? p1 with
        | none => .error "ValueError"
        | some si =>
          match rest2 with
          | [] => replace_header_image d fs si path 0
          | p2 :: _ =>
            match pyInt? p2 with
            | none => .error "ValueError"
            | some ii => replace_header_image d fs si path ii
    else if location = "footer" then
      match rest with
      | [] => .error "IndexError"
      | p1 :: rest2 =>
        match pyInt? p1 with
        | none => .error "ValueError"
        | some si =>
          match rest2 with
          | [] => replace_footer_image d fs si path 0
          | p2 :: _ =>
            match pyInt? p2 with
            | none => .error "ValueError"
            | some ii => replace_footer_image d fs si path ii
    else if location = "body" then
      match rest with
      | [] => .error "IndexError"
      | p1 :: _ =>
        match pyInt? p1 with
        | none => .error "ValueError"
        | some ii => replace_body_image_by_index d fs ii path
    else .ok (false, d)

/-- One key of `replace_images_batch`: run the dispatch and catch every
exception into a `false` result for that key. -/
def batchOne (d : ImgDoc) (fs : FS) (key path : String) : Bool × ImgDoc :=
  match batchResult d fs key path with
  | .ok r => r
  | .error _ => (false, d)

/-- `ImageReplacer.replace_images_batch`: process every key in order,
threading the document; every key gets a boolean result. -/
def replace_images_batch (d : ImgDoc) (fs : FS) :
    List (String × String) → List (String × Bool) × ImgDoc
  | [] => ([], d)
  | (key, path) :: rest =>
    let r := batchOne d fs key path
    let tail := replace_images_batch r.2 fs rest
    ((key, r.1) :: tail.1, tail.2)

/-! ## Derived views of the document, used to state the claims -/

/-- Every paragraph reachable from a body child list, in order: body
paragraphs and the paragraphs of every table cell. -/
def bodyParas (body : List BodyChild) : List Para :=
  body.flatMap fun ch =>
    match ch with
    | .par p => [p]
    | .tbl t => t.rows.flatMap fun r => r.flatMap fun c => c
    | .other => []

/-- Every header and footer paragraph of the sections, in order. -/
def sectParas (ss : List Sect) : List Para :=
  ss.flatMap fun s => (s.header.getD []) ++ (s.footer.getD [])

/-- Every paragraph of the document the engine can touch. -/
def allDocParas (d : Doc) : List Para := bodyParas d.body ++ sectParas d.sections

/-- Spec-side count for the substitution pass on a single name: the number of
Runs anywhere in the document whose text contains the token — one per Run,
however many occurrences the Run holds. -/
def specRunCount (d : Doc) (k : String) : Nat :=
  ((allDocParas d).map fun p =>
    (p.runs.filter fun r => pyContains r.text (tok k)).length).sum

/-! ## Concrete fixtures for witnesses and counterexamples -/

/-- One body paragraph holding one token, one header paragraph without. -/
def docC1 : Doc :=
  ⟨[.par ⟨some 0, 0, [⟨tok "name", 5⟩]⟩],
   [⟨some [⟨some 1, 0, [⟨"plain", 3⟩]⟩], none⟩]⟩

/-- One run holding two occurrences of the same token. -/
def docC4 : Doc :=
  ⟨[.par ⟨some 0, 0, [⟨tok "name" ++ " " ++ tok "name", 7⟩]⟩], []⟩

/-- Scenario 1: one paragraph `Hello {{name}}` in a single run. -/
def docC4b : Doc := ⟨[.par ⟨some 0, 0, [⟨"Hello " ++ tok "name", 7⟩]⟩], []⟩

/-- A paragraph whose token is split over two adjacent runs (the braces open
in the first run and close in the second). -/
def paraC5 : Para :=
  ⟨some 0, 0, [⟨⟨[braceL, braceL]⟩, 1⟩, ⟨⟨'n' :: 'a' :: 'm' :: 'e' :: [braceR, braceR]⟩, 2⟩]⟩

/-- One body paragraph holding only a nested field placeholder. -/
def docC6 : Doc := ⟨[.par ⟨some 0, 0, [mkRun (nestedTok "key" "field")]⟩], []⟩

/-- Scenario 2 surroundings: a list placeholder paragraph between two plain
paragraphs. -/
def docC3 : Doc :=
  ⟨[.par ⟨some 0, 0, [mkRun "pre"]⟩,
    .par ⟨some 1, 0, [mkRun (tok "items")]⟩,
    .par ⟨some 2, 0, [mkRun "post"]⟩], []⟩

/-- The three-element string array of Scenario 2. -/
def itemsABC : List PyItem := [.istr "A", .istr "B", .istr "C"]

/-- A document whose only token sits in a header paragraph. -/
def docC6w : Doc := ⟨[], [⟨some [⟨some 2, 0, [mkRun ("x " ++ tok "name")]⟩], none⟩]⟩

/-- A drawing element: extent in EMU, inline wrapping, opaque payload. -/
def drawingA : Drawing := ⟨some 914400, some 457200, true, 7⟩

/-- The readable image files used by the image-replacement fixtures. -/
def fsImg : FS := [("new.png", [5, 6]), ("new.webp", [9])]

/-- A body with one image relationship and one non-image relationship. -/
def imgDocC7 : ImgDoc :=
  ⟨⟨[("rId1", ⟨"doc-image", ⟨[1], "image/png"⟩⟩),
     ("rId2", ⟨"doc-hyperlink", ⟨[], ""⟩⟩)], [drawingA]⟩, []⟩

/-- `imgDocC7` after replacing body image 0 with the bytes of `new.png`. -/
def imgDocC7s : ImgDoc :=
  ⟨⟨[("rId1", ⟨"doc-image", ⟨[5, 6], "image/png"⟩⟩),
     ("rId2", ⟨"doc-hyperlink", ⟨[], ""⟩⟩)], [drawingA]⟩, []⟩

/-- The media part of the single header image of `imgDocC8`. -/
def mediaC8 : Media := ⟨[1, 2], "image/png"⟩

/-- The header part of `imgDocC8`. -/
def hdC8 : ImgPart := ⟨[("rId1", ⟨"doc-image", mediaC8⟩)], [drawingA]⟩

/-- One section whose header holds one image. -/
def imgDocC8 : ImgDoc := ⟨⟨[], []⟩, [⟨some hdC8, none⟩]⟩

/-- `imgDocC8` after swapping in the bytes of `new.webp`: the blob is
replaced while the content type keeps its old value. -/
def imgDocC8s : ImgDoc :=
  ⟨⟨[], []⟩,
   [⟨some ⟨[("rId1", ⟨"doc-image", ⟨[9], "image/png"⟩⟩)], [drawingA]⟩, none⟩]⟩

/-- One body image and one header image (Scenario 5). -/
def imgDocC9 : ImgDoc :=
  ⟨⟨[("rId1", ⟨"doc-image", ⟨[1], "image/png"⟩⟩)], [drawingA]⟩,
   [⟨some ⟨[("rId7", ⟨"doc-image", ⟨[2], "image/png"⟩⟩)], []⟩, none⟩]⟩

/-- The Scenario 5 batch with a third, out-of-range key. -/
def batchC9 : List (String × String) :=
  [("body_0", "new.png"), ("header_0_0", "new.png"), ("body_5", "new.png")]

/-- The first two (successful) keys of `batchC9`. -/
def batchC9pre : List (String × String) :=
  [("body_0", "new.png"), ("header_0_0", "new.png")]

/-! ## Basic sanity examples (kept as compile-time checks) -/

section Sanity

/-- A one-cell row holding one paragraph with the given text. -/
def row1 (pid : Nat) (s : String) : Row := [[⟨some pid, 0, [mkRun s]⟩]]

def tblA : Table := ⟨[.other, .other, .tr (row1 1 (nestedTok "rows" "v"))]⟩

def dataA : DynData :=
  [("rows", .vlist [.iobj [("v", "X")], .iobj [("v", "Y")], .iobj [("v", "Z")]])]

example :
    ((expand_dynamic_tables ⟨[.tbl tblA], []⟩ dataA).1.tables.map
      (fun t => t.rows.map (fun r => r.map cellText))) = [[["X"], ["Z"], ["Y"]]] := by
  decide

def tblB : Table := ⟨[.other, .other, .tr (row1 1 "h"), .tr (row1 2 (nestedTok "rows" "v"))]⟩

def dataB : DynData := [("rows", .vlist [.iobj [("v", "X")], .iobj [("v", "Y")]])]

example :
    ((expand_dynamic_tables ⟨[.tbl tblB], []⟩ dataB).1.tables.map
      (fun t => t.rows.map (fun r => r.map cellText))) = [[["X"], ["h"], ["Y"]]] := by
  decide

end Sanity

/-! ## String primitive lemmas -/

theorem mk_toList (s : String) : (⟨s.toList⟩ : String) = s := rfl

theorem toList_mk (cs : List Char) : (⟨cs⟩ : String).toList = cs := rfl

theorem isPrefixOf_iff (l₁ l₂ : List Char) : l₁.isPrefixOf l₂ = true ↔ l₁ <+: l₂ :=
  List.isPrefixOf_iff_prefix

theorem hasInfixL_iff (pat s : List Char) : hasInfixL pat s = true ↔ pat <:+: s := by
  induction s with
  | nil =>
    simp only [hasInfixL, List.isEmpty_iff, List.infix_nil]
  | cons c rest ih =>
    simp only [hasInfixL, Bool.or_eq_true, isPrefixOf_iff, ih, List.infix_cons_iff]

theorem pyContains_iff (s pat : String) :
    pyContains s pat = true ↔ pat.toList <:+: s.toList := hasInfixL_iff _ _

theorem replFuel_no_occur (pat rep : List Char) :
    ∀ (fuel : Nat) (s : List Char), hasInfixL pat s = false → replFuel pat rep fuel s = s := by
  intro fuel
  induction fuel with
  | zero => intro s _; cases s <;> rfl
  | succ fuel ih =>
    intro s h
    cases s with
    | nil => rfl
    | cons c rest =>
      simp only [hasInfixL, Bool.or_eq_false_iff] at h
      simp only [replFuel, h.1, if_false, Bool.false_eq_true]
      exact congrArg (c :: ·) (ih rest h.2)

theorem pyReplace_no_occur (s pat rep : String) (h : pyContains s pat = false) :
    pyReplace s pat rep = s := by
  unfold pyReplace
  by_cases he : pat.isEmpty
  · simp [he]
  · simp only [he, if_false, Bool.false_eq_true]
    rw [replFuel_no_occur _ _ _ _ h, mk_toList]

theorem replaceKeys_no_mapped (data : ScalarData) (s : String)
    (h : ∀ kv ∈ data, pyContains s (tok kv.1) = false) : replaceKeys data s = (s, 0) := by
  induction data with
  | nil => rfl
  | cons kv rest ih =>
    have hc : pyContains s (tok kv.1) = false := h kv (List.mem_cons_self kv rest)
    simp only [replaceKeys, hc, if_false, Bool.false_eq_true]
    exact ih (fun e he => h e (List.mem_cons_of_mem kv he))

/-! ## The token grammar: the scanner finds exactly the substring matches -/

theorem isWordChar_braceL : isWordChar braceL = false := by decide

theorem isWordChar_braceR : isWordChar braceR = false := by decide

theorem takeWhile_word (n t : List Char) (hw : ∀ c ∈ n, isWordChar c = true) :
    (n ++ braceR :: t).takeWhile isWordChar = n := by
  induction n with
  | nil => simp [List.takeWhile_cons, isWordChar_braceR]
  | cons c cs ih =>
    have hc := hw c (List.mem_cons_self c cs)
    simp only [List.cons_append, List.takeWhile_cons, hc, if_true]
    exact congrArg (c :: ·) (ih (fun x hx => hw x (List.mem_cons_of_mem c hx)))

theorem dropWhile_word (n t : List Char) (hw : ∀ c ∈ n, isWordChar c = true) :
    (n ++ braceR :: t).dropWhile isWordChar = braceR :: t := by
  induction n with
  | nil => simp [List.dropWhile_cons, isWordChar_braceR]
  | cons c cs ih =>
    have hc := hw c (List.mem_cons_self c cs)
    simp only [List.cons_append, List.dropWhile_cons, hc, if_true]
    exact ih (fun x hx => hw x (List.mem_cons_of_mem c hx))

theorem tokChars_append (n t : List Char) :
    tokChars n ++ t = braceL :: braceL :: (n ++ braceR :: braceR :: t) := by
  simp [tokChars]

theorem tokAt_sound {s m r : List Char} (h : tokAt s = some (m, r)) :
    s = tokChars m ++ r ∧ m ≠ [] ∧ (∀ c ∈ m, isWordChar c = true) := by
  match s with
  | [] => exact absurd h (by simp [tokAt])
  | [c] => exact absurd h (by simp [tokAt])
  | c1 :: c2 :: rest =>
    rw [tokAt] at h
    by_cases hbr : (c1 = braceL && c2 = braceL) = true
    swap
    · rw [if_neg hbr] at h; exact absurd h (by simp)
    rw [if_pos hbr] at h
    obtain ⟨h1, h2⟩ := Bool.and_eq_true _ _ |>.mp hbr
    rw [decide_eq_true_eq] at h1 h2
    subst h1; subst h2
    split at h
    · exact absurd h (by simp)
    case _ a as d1 d2 r3 htw hdw =>
      by_cases hd : (d1 = braceR && d2 = braceR) = true
      swap
      · rw [if_neg hd] at h; exact absurd h (by simp)
      rw [if_pos hd] at h
      obtain ⟨hd1, hd2⟩ := Bool.and_eq_true _ _ |>.mp hd
      rw [decide_eq_true_eq] at hd1 hd2
      subst hd1; subst hd2
      have hmr : a :: as = m ∧ r3 = r := by simpa using h
      obtain ⟨hm, hr⟩ := hmr
      have hrest : rest = (a :: as) ++ braceR :: braceR :: r3 := by
        conv_lhs => rw [← @List.takeWhile_append_dropWhile _ isWordChar rest]
        rw [htw, hdw]
      subst hm; subst hr
      refine ⟨?_, List.cons_ne_nil a as, ?_⟩
      · rw [tokChars_append, hrest]
      · intro c hc; exact List.mem_takeWhile_imp (htw ▸ hc)
    case _ => exact absurd h (by simp)

theorem tokAt_complete {n : List Char} (t : List Char) (hne : n ≠ [])
    (hw : ∀ c ∈ n, isWordChar c = true) : tokAt (tokChars n ++ t) = some (n, t) := by
  obtain ⟨a, as, rfl⟩ := List.exists_cons_of_ne_nil hne
  rw [tokChars_append, tokAt]
  have htw : ((a :: as) ++ braceR :: braceR :: t).takeWhile isWordChar = a :: as :=
    takeWhile_word _ _ hw
  have hdw : ((a :: as) ++ braceR :: braceR :: t).dropWhile isWordChar =
      braceR :: braceR :: t := dropWhile_word _ _ hw
  simp only [htw, hdw]
  simp

theorem infix_iff_exists_drop (l s : List Char) :
    l <:+: s ↔ ∃ i, l <+: s.drop i := by
  constructor
  · rintro ⟨pre, suf, rfl⟩
    exact ⟨pre.length, suf, by rw [List.append_assoc, List.drop_left]⟩
  · rintro ⟨i, t, ht⟩
    exact ⟨s.take i, t, by rw [List.append_assoc, ht, List.take_append_drop]⟩

theorem cons_prefix_elim {a : Char} {l s : List Char} (h : (a :: l) <+: s) :
    ∃ s2, s = a :: s2 ∧ l <+: s2 := by
  obtain ⟨t, ht⟩ := h
  exact ⟨l ++ t, by rw [← ht]; rfl, ⟨t, rfl⟩⟩

theorem no_token_starts_inside {m r3 n : List Char} {i : Nat}
    (hm : m ≠ []) (hmw : ∀ c ∈ m, isWordChar c = true)
    (hpre : tokChars n <+: (tokChars m ++ r3).drop i) :
    i = 0 ∨ ∃ j, tokChars n <+: r3.drop j := by
  rcases Nat.eq_zero_or_pos i with hi | hi
  · exact Or.inl hi
  by_cases hlen : (tokChars m).length ≤ i
  · right
    refine ⟨i - (tokChars m).length, ?_⟩
    have : (tokChars m ++ r3).drop i = r3.drop (i - (tokChars m).length) := by
      have := @List.drop_append _ (tokChars m) r3 (i - (tokChars m).length)
      rwa [Nat.add_sub_cancel' hlen] at this
    rwa [this] at hpre
  push_neg at hlen
  -- 1 ≤ i < |tokChars m|: the occurrence would have to start inside the
  -- matched token, which its character shapes forbid.
  exfalso
  have hdrop : (tokChars m ++ r3).drop i = (tokChars m).drop i ++ r3 :=
    List.drop_append_of_le_length (Nat.le_of_lt hlen)
  rw [hdrop] at hpre
  rcases Nat.lt_or_ge i 2 with hi2 | hi2
  · -- i = 1: the character after the leading brace is a word character
    have hieq : i = 1 := by omega
    subst hieq
    obtain ⟨a, as, rfl⟩ := List.exists_cons_of_ne_nil hm
    simp only [tokChars, List.drop_succ_cons, List.drop_zero, List.cons_append,
      List.append_assoc] at hpre
    obtain ⟨s1, hs1, hpre1⟩ := cons_prefix_elim hpre
    have hs1t : s1 = a :: (as ++ ([braceR, braceR] ++ r3)) := by
      have h0 := congrArg List.tail hs1
      simpa using h0.symm
    rw [hs1t] at hpre1
    obtain ⟨s2, hs2, -⟩ := cons_prefix_elim hpre1
    have ha2 : a = braceL := by
      have h0 := congrArg List.head? hs2
      simpa using h0
    have ha : isWordChar a = true := hmw a (List.mem_cons_self a as)
    rw [ha2, isWordChar_braceL] at ha
    exact Bool.false_ne_true ha
  · -- 2 ≤ i < |tokChars m|: the first character of the rest of the token is
    -- a word character or a closing brace, never an opening brace.
    obtain ⟨i2, rfl⟩ : ∃ i2, i = i2 + 2 := ⟨i - 2, by omega⟩
    have hsh : (tokChars m).drop (i2 + 2) = (m ++ [braceR, braceR]).drop i2 := rfl
    rw [hsh] at hpre
    have hnz : (m ++ [braceR, braceR]).drop i2 ≠ [] := by
      intro hnil
      rw [List.drop_eq_nil_iff] at hnil
      simp only [tokChars, List.length_cons, List.length_append, List.length_nil] at hlen hnil
      omega
    obtain ⟨x, xs, hx⟩ := List.exists_cons_of_ne_nil hnz
    rw [hx] at hpre
    have hx_mem : x ∈ m ++ [braceR, braceR] :=
      List.mem_of_mem_drop (hx ▸ List.mem_cons_self x xs)
    have hxl : x = braceL := by
      simp only [tokChars, List.cons_append] at hpre
      obtain ⟨s1, hs1, -⟩ := cons_prefix_elim hpre
      have h0 := congrArg List.head? hs1
      simpa using h0
    rw [List.mem_append] at hx_mem
    rcases hx_mem with hxm | hxbr
    · have hw := hmw x hxm
      rw [hxl, isWordChar_braceL] at hw
      exact Bool.false_ne_true hw
    · simp only [List.mem_cons, List.mem_singleton, List.not_mem_nil, or_false] at hxbr
      have hxr : x = braceR := by rcases hxbr with h | h <;> exact h
      rw [hxr] at hxl
      exact absurd hxl (by decide)

theorem scanFuel_mem :
    ∀ (fuel : Nat) (s : List Char), s.length ≤ fuel → ∀ n : List Char,
      (n ∈ scanFuel fuel s ↔
        n ≠ [] ∧ (∀ c ∈ n, isWordChar c = true) ∧ tokChars n <:+: s) := by
  intro fuel
  induction fuel with
  | zero =>
    intro s hs n
    have hnil : s = [] := List.length_eq_zero.mp (Nat.le_zero.mp hs)
    subst hnil
    simp only [scanFuel, List.not_mem_nil, false_iff]
    rintro ⟨-, -, hinf⟩
    rw [List.infix_nil] at hinf
    exact absurd hinf (by simp [tokChars])
  | succ fuel ih =>
    intro s hs n
    cases s with
    | nil =>
      simp only [scanFuel, List.not_mem_nil, false_iff]
      rintro ⟨-, -, hinf⟩
      rw [List.infix_nil] at hinf
      exact absurd hinf (by simp [tokChars])
    | cons c rest =>
      cases htok : tokAt (c :: rest) with
      | some v =>
        obtain ⟨m2, r3⟩ := v
        obtain ⟨hshape, hmne, hmw⟩ := tokAt_sound htok
        have hr3len : r3.length ≤ fuel := by
          have hlen := congrArg List.length hshape
          simp only [List.length_cons, List.length_append, tokChars,
            List.length_nil] at hlen hs
          omega
        constructor
        · intro hmem
          simp only [scanFuel, htok, List.mem_cons] at hmem
          rcases hmem with rfl | hmem
          · refine ⟨hmne, hmw, [], r3, ?_⟩
            rw [List.nil_append, hshape]
          · obtain ⟨hne, hw, hinf⟩ := (ih r3 hr3len n).mp hmem
            refine ⟨hne, hw, ?_⟩
            rw [hshape]
            exact hinf.trans (List.suffix_append (tokChars m2) r3).isInfix
        · rintro ⟨hne, hw, hinf⟩
          rw [infix_iff_exists_drop] at hinf
          obtain ⟨i, hpre⟩ := hinf
          rw [hshape] at hpre
          rcases no_token_starts_inside hmne hmw hpre with hi0 | ⟨j, hj⟩
          · subst hi0
            rw [List.drop_zero] at hpre
            obtain ⟨t, ht⟩ := hpre
            have : tokAt (tokChars m2 ++ r3) = some (n, t) := by
              rw [← ht]; exact tokAt_complete t hne hw
            rw [← hshape, htok] at this
            obtain ⟨hnm, -⟩ := by simpa using this
            subst hnm
            simp [scanFuel, htok]
          · have hmem : n ∈ scanFuel fuel r3 :=
              (ih r3 hr3len n).mpr
                ⟨hne, hw, (infix_iff_exists_drop _ _).mpr ⟨j, hj⟩⟩
            simp [scanFuel, htok, hmem]
      | none =>
        have hrlen : rest.length ≤ fuel := by
          simp only [List.length_cons] at hs; omega
        constructor
        · intro hmem
          simp only [scanFuel, htok] at hmem
          obtain ⟨hne, hw, hinf⟩ := (ih rest hrlen n).mp hmem
          exact ⟨hne, hw, hinf.trans (List.suffix_cons c rest).isInfix⟩
        · rintro ⟨hne, hw, hinf⟩
          rw [infix_iff_exists_drop] at hinf
          obtain ⟨i, hpre⟩ := hinf
          cases i with
          | zero =>
            rw [List.drop_zero] at hpre
            obtain ⟨t, ht⟩ := hpre
            have : tokAt (c :: rest) = some (n, t) := by
              rw [← ht]; exact tokAt_complete t hne hw
            rw [htok] at this
            exact absurd this (by simp)
          | succ i2 =>
            rw [List.drop_succ_cons] at hpre
            have hmem : n ∈ scanFuel fuel rest :=
              (ih rest hrlen n).mpr
                ⟨hne, hw, (infix_iff_exists_drop _ _).mpr ⟨i2, hpre⟩⟩
            simp [scanFuel, htok, hmem]

theorem scanStr_mem (s n : String) : n ∈ scanStr s ↔ SpecTokenIn s n := by
  unfold scanStr SpecTokenIn
  rw [List.mem_map]
  constructor
  · rintro ⟨cs, hcs, rfl⟩
    exact (scanFuel_mem _ _ le_rfl cs).mp hcs
  · rintro ⟨hne, hw, hinf⟩
    exact ⟨n.toList, (scanFuel_mem _ _ le_rfl n.toList).mpr ⟨hne, hw, hinf⟩, mk_toList n⟩

theorem hasTokenStr_of_infix {s : String} {n : List Char} (hne : n ≠ [])
    (hw : ∀ c ∈ n, isWordChar c = true) (hinf : tokChars n <:+: s.toList) :
    hasTokenStr s = true := by
  have hmem : (⟨n⟩ : String) ∈ scanStr s := (scanStr_mem s ⟨n⟩).mpr ⟨hne, hw, hinf⟩
  have hne2 : scanStr s ≠ [] := List.ne_nil_of_mem hmem
  simp [hasTokenStr, List.isEmpty_iff, hne2]

theorem hasTokenStr_of_contains {s k : String} (hne : k.toList ≠ [])
    (hw : ∀ c ∈ k.toList, isWordChar c = true) (hc : pyContains s (tok k) = true) :
    hasTokenStr s = true := by
  rw [pyContains_iff] at hc
  exact hasTokenStr_of_infix hne hw hc

example : pyContains ("Hello " ++ tok "name") (tok "name") = true := by decide
example : pyReplace ("Hello " ++ tok "name") (tok "name") "World" = "Hello World" := by decide
example : scanStr ("a " ++ tok "x" ++ " b " ++ tok "y_2") = ["x", "y_2"] := by decide
example : scanStr (nestedTok "key" "field") = [] := by decide
example : hasTokenStr (nestedTok "key" "field") = false := by decide

/-! ## Run and paragraph lemmas for the substitution engine -/

theorem string_join_toList_aux (l : List String) :
    ∀ init : String, (l.foldl (fun r s => r ++ s) init).toList
      = init.toList ++ (l.map String.toList).flatten := by
  induction l with
  | nil => intro init; simp
  | cons s rest ih =>
    intro init
    simp only [List.foldl_cons, List.map_cons, List.flatten_cons]
    rw [ih (init ++ s)]
    rw [show (init ++ s).toList = init.toList ++ s.toList from rfl, List.append_assoc]

theorem para_text_toList (p : Para) :
    p.text.toList = ((p.runs.map Run.text).map String.toList).flatten := by
  unfold Para.text String.join
  rw [string_join_toList_aux]
  rfl

theorem contains_para_of_contains_run {p : Para} {r : Run} (hr : r ∈ p.runs)
    {pat : String} (h : pyContains r.text pat = true) : pyContains p.text pat = true := by
  rw [pyContains_iff] at h ⊢
  obtain ⟨l1, l2, hsplit⟩ := List.append_of_mem hr
  rw [para_text_toList, hsplit]
  simp only [List.map_append, List.map_cons, List.flatten_append, List.flatten_cons]
  obtain ⟨pre, suf, hps⟩ := h
  exact ⟨((l1.map Run.text).map String.toList).flatten ++ pre,
    suf ++ ((l2.map Run.text).map String.toList).flatten, by
      rw [← hps]; simp [List.append_assoc]⟩

theorem not_contains_run {p : Para} {r : Run} (hr : r ∈ p.runs) {pat : String}
    (h : pyContains p.text pat = false) : pyContains r.text pat = false := by
  by_contra hc
  rw [Bool.not_eq_false] at hc
  rw [contains_para_of_contains_run hr hc] at h
  exact absurd h (by decide)

theorem replace_in_runs_fst_fmt (data : ScalarData) (rs : List Run) :
    (replace_in_runs data rs).1.map Run.fmt = rs.map Run.fmt := by
  induction rs with
  | nil => rfl
  | cons r rest ih =>
    by_cases h : hasTokenStr r.text = true
    · simp [replace_in_runs, h, ih]
    · simp [replace_in_runs, h, ih]

theorem replace_in_runs_get_untouched (data : ScalarData) (rs : List Run) :
    ∀ (j : Nat) (r : Run), rs.get? j = some r →
    (hasTokenStr r.text = false ∨ ∀ kv ∈ data, pyContains r.text (tok kv.1) = false) →
    (replace_in_runs data rs).1.get? j = some r := by
  induction rs with
  | nil => intro j r hj; simp at hj
  | cons r0 rest ih =>
    intro j r hj hr
    cases j with
    | zero =>
      rw [List.get?_cons_zero, Option.some.injEq] at hj
      subst hj
      rcases hr with hg | hnm
      · simp [replace_in_runs, hg]
      · by_cases hg : hasTokenStr r0.text = true
        · have hkeys : replaceKeys data r0.text = (r0.text, 0) :=
            replaceKeys_no_mapped data r0.text hnm
          simp [replace_in_runs, hg, hkeys]
        · simp [replace_in_runs, hg]
    | succ j2 =>
      rw [List.get?_cons_succ] at hj
      have htail := ih j2 r hj hr
      by_cases hg : hasTokenStr r0.text = true
      · simpa [replace_in_runs, hg] using htail
      · simpa [replace_in_runs, hg] using htail

theorem replace_in_runs_id (data : ScalarData) (rs : List Run)
    (h : ∀ r ∈ rs, ∀ kv ∈ data, pyContains r.text (tok kv.1) = false) :
    replace_in_runs data rs = (rs, 0) := by
  induction rs with
  | nil => rfl
  | cons r rest ih =>
    have htail := ih (fun x hx => h x (List.mem_cons_of_mem r hx))
    by_cases hg : hasTokenStr r.text = true
    · have hkeys : replaceKeys data r.text = (r.text, 0) :=
        replaceKeys_no_mapped data r.text (h r (List.mem_cons_self r rest))
      simp [replace_in_runs, hg, hkeys, htail]
    · simp [replace_in_runs, hg, htail]

theorem replace_in_runs_gate_id (data : ScalarData) (rs : List Run)
    (h : ∀ r ∈ rs, hasTokenStr r.text = false) :
    replace_in_runs data rs = (rs, 0) := by
  induction rs with
  | nil => rfl
  | cons r rest ih =>
    have hg : hasTokenStr r.text = false := h r (List.mem_cons_self r rest)
    have htail := ih (fun x hx => h x (List.mem_cons_of_mem r hx))
    simp [replace_in_runs, hg, htail]

theorem replacePara_untouched (data : ScalarData) (p : Para)
    (h : ∀ kv ∈ data, pyContains p.text (tok kv.1) = false) :
    replacePara data true p = (p, 0) := by
  by_cases hg : hasTokenStr p.text = true
  · have hid : replace_in_runs data p.runs = (p.runs, 0) :=
      replace_in_runs_id data p.runs
        (fun r hr kv hkv => not_contains_run hr (h kv hkv))
    simp [replacePara, hg, hid]
  · simp [replacePara, hg]

theorem replacePara_runs_gate (data : ScalarData) (p : Para)
    (h : ∀ r ∈ p.runs, hasTokenStr r.text = false) :
    replacePara data true p = (p, 0) := by
  by_cases hg : hasTokenStr p.text = true
  · have hid := replace_in_runs_gate_id data p.runs h
    simp [replacePara, hg, hid]
  · simp [replacePara, hg]

/-! ## Structure of the full substitution pass -/

theorem replaceParas_fst (data : ScalarData) (pf : Bool) (ps : List Para) :
    (replaceParas data pf ps).1 = ps.map (fun p => (replacePara data pf p).1) := by
  induction ps with
  | nil => rfl
  | cons p rest ih => simp [replaceParas, ih]

theorem replaceCells_fst (data : ScalarData) (pf : Bool) (r : Row) :
    (replaceCells data pf r).1 = r.map (fun c => (replaceParas data pf c).1) := by
  induction r with
  | nil => rfl
  | cons c rest ih => simp [replaceCells, ih]

theorem replaceTblChildren_fst (data : ScalarData) (pf : Bool) (cs : List TblChild) :
    (replaceTblChildren data pf cs).1 = cs.map (fun ch =>
      match ch with
      | .tr r => TblChild.tr (replaceCells data pf r).1
      | .other => TblChild.other) := by
  induction cs with
  | nil => rfl
  | cons ch rest ih =>
    cases ch with
    | tr r => simp [replaceTblChildren, ih]
    | other => simp [replaceTblChildren, ih]

theorem replaceBody_fst (data : ScalarData) (pf : Bool) (body : List BodyChild) :
    (replaceBody data pf body).1 = body.map (fun ch =>
      match ch with
      | .par p => BodyChild.par (replacePara data pf p).1
      | .tbl t => BodyChild.tbl (replace_in_table data pf t).1
      | .other => BodyChild.other) := by
  induction body with
  | nil => rfl
  | cons ch rest ih =>
    cases ch with
    | par p => simp [replaceBody, ih]
    | tbl t => simp [replaceBody, ih]
    | other => simp [replaceBody, ih]

theorem replaceSections_fst (data : ScalarData) (pf : Bool) (ss : List Sect) :
    (replaceSections data pf ss).1 = ss.map (fun s =>
      ⟨(replacePart data pf s.header).1, (replacePart data pf s.footer).1⟩) := by
  induction ss with
  | nil => rfl
  | cons s rest ih => simp [replaceSections, ih]

theorem paras_replaceParas (data : ScalarData) (pf : Bool) (ps : List Para) :
    (replaceParas data pf ps).1 = ps.map (fun p => (replacePara data pf p).1) :=
  replaceParas_fst data pf ps

theorem cellParas_replace (data : ScalarData) (pf : Bool) (r : Row) :
    ((replaceCells data pf r).1.flatMap fun c => c)
      = ((r.flatMap fun c => c).map fun p => (replacePara data pf p).1) := by
  rw [replaceCells_fst]
  induction r with
  | nil => rfl
  | cons c rest ih =>
    simp only [List.map_cons, List.flatMap_cons, List.map_append, ih]
    congr 1
    exact replaceParas_fst data pf c

theorem tableParas_replace (data : ScalarData) (pf : Bool) (t : Table) :
    ((replace_in_table data pf t).1.rows.flatMap fun r => r.flatMap fun c => c)
      = ((t.rows.flatMap fun r => r.flatMap fun c => c).map
          fun p => (replacePara data pf p).1) := by
  unfold replace_in_table Table.rows
  dsimp only
  rw [replaceTblChildren_fst]
  induction t.children with
  | nil => rfl
  | cons ch rest ih =>
    cases ch with
    | tr r =>
      simp only [List.map_cons, List.filterMap_cons, List.flatMap_cons,
        List.map_append, ih]
      congr 1
      exact cellParas_replace data pf r
    | other => simpa [List.filterMap_cons] using ih

theorem bodyParas_replaceBody (data : ScalarData) (pf : Bool) (body : List BodyChild) :
    bodyParas (replaceBody data pf body).1
      = (bodyParas body).map (fun p => (replacePara data pf p).1) := by
  induction body with
  | nil => rfl
  | cons ch rest ih =>
    cases ch with
    | par p =>
      simp only [replaceBody, bodyParas, List.flatMap_cons, List.map_append]
      exact congrArg _ ih
    | tbl t =>
      simp only [replaceBody, bodyParas, List.flatMap_cons, List.map_append]
      rw [show (replaceBody data pf rest).1.flatMap _ = bodyParas (replaceBody data pf rest).1
          from rfl] at *
      rw [ih]
      congr 1
      exact tableParas_replace data pf t
    | other =>
      simpa only [replaceBody, bodyParas, List.flatMap_cons, List.nil_append] using ih

/-! ## Counting for a single-name mapping -/

theorem replaceKeys_single_snd (k v s : String) :
    (replaceKeys [(k, v)] s).2 = if pyContains s (tok k) then 1 else 0 := by
  by_cases h : pyContains s (tok k) = true <;> simp [replaceKeys, h]

theorem replace_in_runs_snd_single (k v : String) (hk : k.toList ≠ [])
    (hw : ∀ c ∈ k.toList, isWordChar c = true) (rs : List Run) :
    (replace_in_runs [(k, v)] rs).2
      = (rs.filter fun r => pyContains r.text (tok k)).length := by
  induction rs with
  | nil => rfl
  | cons r rest ih =>
    by_cases hg : hasTokenStr r.text = true
    · by_cases hc : pyContains r.text (tok k) = true
      · simp [replace_in_runs, hg, hc, replaceKeys_single_snd, List.filter_cons, ih,
          Nat.add_comm]
      · simp [replace_in_runs, hg, hc, replaceKeys_single_snd, List.filter_cons, ih]
    · have hc : pyContains r.text (tok k) = false := by
        by_contra hcc
        rw [Bool.not_eq_false] at hcc
        exact hg (hasTokenStr_of_contains hk hw hcc)
      simp [replace_in_runs, hg, hc, List.filter_cons, ih]

theorem replacePara_snd_single (k v : String) (hk : k.toList ≠ [])
    (hw : ∀ c ∈ k.toList, isWordChar c = true) (p : Para) :
    (replacePara [(k, v)] true p).2
      = (p.runs.filter fun r => pyContains r.text (tok k)).length := by
  by_cases hg : hasTokenStr p.text = true
  · simp [replacePara, hg, replace_in_runs_snd_single k v hk hw]
  · have hfil : (p.runs.filter fun r => pyContains r.text (tok k)) = [] := by
      rw [List.filter_eq_nil_iff]
      intro r hr
      intro hc
      exact hg (hasTokenStr_of_contains hk hw (contains_para_of_contains_run hr hc))
    simp [replacePara, hg, hfil]

theorem replaceParas_snd_single (k v : String) (hk : k.toList ≠ [])
    (hw : ∀ c ∈ k.toList, isWordChar c = true) (ps : List Para) :
    (replaceParas [(k, v)] true ps).2
      = (ps.map fun p => (p.runs.filter fun r => pyContains r.text (tok k)).length).sum := by
  induction ps with
  | nil => rfl
  | cons p rest ih =>
    simp [replaceParas, replacePara_snd_single k v hk hw, ih]

theorem replaceCells_snd_single (k v : String) (hk : k.toList ≠ [])
    (hw : ∀ c ∈ k.toList, isWordChar c = true) (r : Row) :
    (replaceCells [(k, v)] true r).2
      = ((r.flatMap fun c => c).map
          fun p => (p.runs.filter fun r2 => pyContains r2.text (tok k)).length).sum := by
  induction r with
  | nil => rfl
  | cons c rest ih =>
    simp [replaceCells, replaceParas_snd_single k v hk hw, ih, List.flatMap_cons,
      List.map_append, List.sum_append]

theorem replace_in_table_snd_single (k v : String) (hk : k.toList ≠ [])
    (hw : ∀ c ∈ k.toList, isWordChar c = true) (t : Table) :
    (replace_in_table [(k, v)] true t).2
      = ((t.rows.flatMap fun r => r.flatMap fun c => c).map
          fun p => (p.runs.filter fun r2 => pyContains r2.text (tok k)).length).sum := by
  unfold replace_in_table Table.rows
  dsimp only
  induction t.children with
  | nil => rfl
  | cons ch rest ih =>
    cases ch with
    | tr r =>
      simp [replaceTblChildren, List.filterMap_cons, replaceCells_snd_single k v hk hw,
        ih, List.flatMap_cons, List.map_append, List.sum_append]
    | other => simpa [replaceTblChildren, List.filterMap_cons] using ih

theorem replaceBody_snd_single (k v : String) (hk : k.toList ≠ [])
    (hw : ∀ c ∈ k.toList, isWordChar c = true) (body : List BodyChild) :
    (replaceBody [(k, v)] true body).2
      = ((bodyParas body).map
          fun p => (p.runs.filter fun r2 => pyContains r2.text (tok k)).length).sum := by
  induction body with
  | nil => rfl
  | cons ch rest ih =>
    cases ch with
    | par p =>
      simp [replaceBody, bodyParas, List.flatMap_cons, replacePara_snd_single k v hk hw,
        ih, List.map_append, List.sum_append]
    | tbl t =>
      simp [replaceBody, bodyParas, List.flatMap_cons, replace_in_table_snd_single k v hk hw,
        ih, List.map_append, List.sum_append]
    | other => simpa [replaceBody, bodyParas, List.flatMap_cons] using ih

theorem replacePart_snd_single (k v : String) (hk : k.toList ≠ [])
    (hw : ∀ c ∈ k.toList, isWordChar c = true) (o : Option (List Para)) :
    (replacePart [(k, v)] true o).2
      = ((o.getD []).map
          fun p => (p.runs.filter fun r2 => pyContains r2.text (tok k)).length).sum := by
  cases o with
  | none => rfl
  | some ps => simp [replacePart, replaceParas_snd_single k v hk hw]

theorem replaceSections_snd_single (k v : String) (hk : k.toList ≠ [])
    (hw : ∀ c ∈ k.toList, isWordChar c = true) (ss : List Sect) :
    (replaceSections [(k, v)] true ss).2
      = ((sectParas ss).map
          fun p => (p.runs.filter fun r2 => pyContains r2.text (tok k)).length).sum := by
  induction ss with
  | nil => rfl
  | cons s rest ih =>
    simp [replaceSections, sectParas, List.flatMap_cons, replacePart_snd_single k v hk hw,
      ih, List.map_append, List.sum_append, Nat.add_assoc]

theorem sectParas_replaceSections (data : ScalarData) (pf : Bool) (ss : List Sect) :
    sectParas (replaceSections data pf ss).1
      = (sectParas ss).map (fun p => (replacePara data pf p).1) := by
  rw [replaceSections_fst]
  induction ss with
  | nil => rfl
  | cons s rest ih =>
    simp only [List.map_cons, sectParas, List.flatMap_cons, List.map_append, ih]
    congr 1
    cases s.header with
    | none =>
      cases s.footer with
      | none => rfl
      | some fps => simp [replacePart, replaceParas_fst]
    | some hps =>
      cases s.footer with
      | none => simp [replacePart, replaceParas_fst]
      | some fps => simp [replacePart, replaceParas_fst]

/-! ## Claim theorems -/

/-- **C1** Strict-mode substitution is atomic: whenever some scanned name is
missing from the mapping, strict `replace_all` raises the data error (the
`ValueError` carrying the missing names) and, being raised before the
replacement walk, produces no mutated document at all; non-strict
`replace_all` never errors, and (in the format-preserving mode) every
paragraph of the body, tables, headers and footers whose text holds no
mapped token — in particular every unmatched token — is left byte-for-byte
verbatim, the result being the per-paragraph substitution map. -/
theorem strict_substitution_atomic (d : Doc) (data : ScalarData) :
    (∀ pf, missingNames d data ≠ [] →
      replace_all d data true pf = .error (missingNames d data))
    ∧ (∀ pf, ∃ res, replace_all d data false pf = .ok res)
    ∧ (∀ d2 cnt, replace_all d data false true = .ok (d2, cnt) →
        allDocParas d2 = (allDocParas d).map (fun p => (replacePara data true p).1))
    ∧ (∀ p : Para, (∀ kv ∈ data, pyContains p.text (tok kv.1) = false) →
        (replacePara data true p).1 = p) := by
  refine ⟨?_, ?_, ?_, ?_⟩
  · intro pf hm
    unfold replace_all
    have hie : (missingNames d data).isEmpty = false := by
      rcases h : missingNames d data with _ | ⟨a, l⟩
      · exact absurd h hm
      · rfl
    simp [hie]
  · intro pf
    unfold replace_all
    simp
  · intro d2 cnt h
    unfold replace_all at h
    simp only [Bool.false_and, Bool.false_eq_true, if_false, Except.ok.injEq,
      Prod.mk.injEq] at h
    obtain ⟨⟨hb, hs⟩, -⟩ := Doc.mk.injEq _ _ _ _ ▸ h
    unfold allDocParas
    rw [← hb, ← hs]
    rw [bodyParas_replaceBody, sectParas_replaceSections, List.map_append]
  · intro p hp
    rw [replacePara_untouched data p hp]

/-- Witness for C1 at a concrete document: one body paragraph holding
`{{name}}`, an empty mapping; strict mode errors with the missing name,
non-strict mode succeeds. -/
theorem strict_substitution_atomic_witness :
    replace_all docC1 [] true true = .error ["name"]
      ∧ (∃ res, replace_all docC1 [] false true = .ok res) := by
  have h := strict_substitution_atomic docC1 []
  have h1 := h.1 true (by decide)
  rw [show missingNames docC1 [] = ["name"] from by decide] at h1
  exact ⟨h1, h.2.1 true⟩

/-- **C4 counterexample** A run holding two occurrences of `{{name}}` has
both replaced but reports a count of 1, not the 2 individual occurrences the
claim requires. -/
theorem substitution_count_counterexample :
    replace_all docC4 [("name", "X")] false true
      = .ok (⟨[.par ⟨some 0, 0, [⟨"X X", 7⟩]⟩], []⟩, 1) ∧ (1 : Nat) ≠ 2 := by
  constructor
  · rfl
  · decide

/-- **C4 amended** For a single-name scalar mapping (with a well-formed
name), non-strict format-preserving `replace_all` returns the number of
*Runs* whose text contains the token — a run with k occurrences of the token
contributes 1, not k — and Scenario 1 (`Hello {{name}}` → count 1) holds. -/
theorem substitution_count_per_run (d : Doc) (k v : String)
    (hk : k.toList ≠ []) (hw : ∀ c ∈ k.toList, isWordChar c = true) :
    (∃ d2, replace_all d [(k, v)] false true = .ok (d2, specRunCount d k))
    ∧ replace_all docC4b [("name", "World")] false true
        = .ok (⟨[.par ⟨some 0, 0, [⟨"Hello World", 7⟩]⟩], []⟩, 1) := by
  constructor
  · refine ⟨⟨(replaceBody [(k, v)] true d.body).1,
      (replaceSections [(k, v)] true d.sections).1⟩, ?_⟩
    unfold replace_all
    simp only [Bool.false_and, Bool.false_eq_true, if_false, Except.ok.injEq,
      Prod.mk.injEq]
    refine ⟨by trivial, ?_⟩
    rw [replaceBody_snd_single k v hk hw, replaceSections_snd_single k v hk hw]
    unfold specRunCount allDocParas
    rw [List.map_append, List.sum_append]
  · rfl

/-- Witness for the amended C4 at a concrete input. -/
theorem substitution_count_per_run_witness :
    (∃ d2, replace_all docC4 [("name", "X")] false true
      = .ok (d2, specRunCount docC4 "name")) ∧ specRunCount docC4 "name" = 1 := by
  have h := substitution_count_per_run docC4 "name" "X" (by decide) (by decide)
  exact ⟨h.1, by decide⟩

/-- **C5** Run-granular substitution in format-preserving mode: the pass
keeps every Run's formatting record (and the run count) unchanged; a Run
whose text holds no complete token — or no mapped token — is left
byte-identical; and a paragraph all of whose Runs lack a complete token is
left entirely untouched even when the concatenated paragraph text does
contain a mapped token (a token split across adjacent Runs is not
matched). -/
theorem run_granular_substitution (data : ScalarData) (rs : List Run) :
    ((replace_in_runs data rs).1.map Run.fmt = rs.map Run.fmt)
    ∧ (∀ (j : Nat) (r : Run), rs.get? j = some r →
        (hasTokenStr r.text = false ∨ ∀ kv ∈ data, pyContains r.text (tok kv.1) = false) →
        (replace_in_runs data rs).1.get? j = some r)
    ∧ (∀ p : Para, (∀ r ∈ p.runs, hasTokenStr r.text = false) →
        replacePara data true p = (p, 0)) := by
  exact ⟨replace_in_runs_fst_fmt data rs,
    replace_in_runs_get_untouched data rs,
    fun p hp => replacePara_runs_gate data p hp⟩

/-- Witness for C5: a token split over two adjacent runs is left unresolved
(the paragraph is untouched) even though the paragraph text contains the
mapped token, while a token inside a single run is substituted with the
formatting record kept. -/
theorem run_granular_substitution_witness :
    replacePara [("name", "X")] true paraC5 = (paraC5, 0)
      ∧ pyContains paraC5.text (tok "name") = true
      ∧ replace_in_runs [("name", "World")] [⟨"Hello " ++ tok "name", 7⟩]
          = ([⟨"Hello World", 7⟩], 1) := by
  have h := run_granular_substitution [("name", "X")] paraC5.runs
  refine ⟨h.2.2 paraC5 ?_, by decide, by decide⟩
  decide

/-- **C6 counterexample** A nested field placeholder `{{key.field}}` is not
matched by the scanner at all: it is not reported under its base name `key`
(the claim), nor under any other name. -/
theorem scanner_nested_counterexample :
    find_all_placeholders docC6 = [] ∧ "key" ∉ find_all_placeholders docC6 := by
  constructor
  · decide
  · decide

/-- **C6 amended** The scanner returns exactly the names matched by the
token grammar `\{\{[A-Za-z0-9_]+\}\}` — those non-empty word-character names
`n` such that `{{n}}` occurs as a substring of some body paragraph, table
cell paragraph, header paragraph or footer paragraph — and a nested
`{{key.field}}` placeholder, which the grammar cannot match, is therefore
not reported under any name. -/
theorem scanner_grammar_exact (d : Doc) (n : String) :
    n ∈ find_all_placeholders d ↔ ∃ t ∈ docScanTexts d, SpecTokenIn t n := by
  unfold find_all_placeholders
  rw [List.mem_flatMap]
  constructor
  · rintro ⟨t, ht, hmem⟩
    exact ⟨t, ht, (scanStr_mem t n).mp hmem⟩
  · rintro ⟨t, ht, hspec⟩
    exact ⟨t, ht, (scanStr_mem t n).mpr hspec⟩

/-- Witness for the amended C6: a token inside a header paragraph is found by
the scanner, via the grammar characterization. -/
theorem scanner_grammar_exact_witness : "name" ∈ find_all_placeholders docC6w := by
  refine (scanner_grammar_exact docC6w "name").mpr ⟨"x " ++ tok "name", by decide, ?_⟩
  refine ⟨by decide, by decide, ⟨['x', ' '], [], by decide⟩⟩

/-! ## List expansion: structure lemmas -/

theorem parasOf_append (a b : List BodyChild) :
    parasOf (a ++ b) = parasOf a ++ parasOf b := by
  simp [parasOf, List.filterMap_append]

theorem bodyTables_append (a b : List BodyChild) :
    bodyTables (a ++ b) = bodyTables a ++ bodyTables b := by
  simp [bodyTables, List.filterMap_append]

theorem setParaAt_mid (front : List BodyChild) (p : Para) (rest : List BodyChild)
    (f : Para → Para) :
    setParaAt (front ++ BodyChild.par p :: rest) front.length f
      = front ++ BodyChild.par (f p) :: rest := by
  induction front with
  | nil => rfl
  | cons ch l ih =>
    cases ch <;> simpa [setParaAt] using ih

theorem spliceAt_mid (front : List BodyChild) (x : BodyChild) (rest items : List BodyChild) :
    spliceAt (front ++ x :: rest) (front.length + 1) items
      = front ++ x :: (items ++ rest) := by
  have h1 : front ++ x :: rest = (front ++ [x]) ++ rest := by simp
  have hl : front.length + 1 = (front ++ [x]).length := by simp
  unfold spliceAt
  rw [h1, hl, List.take_left, List.drop_left]
  simp

theorem get?_mid (front : List BodyChild) (x : BodyChild) (rest : List BodyChild) :
    (front ++ x :: rest).get? front.length = some x := by
  induction front with
  | nil => rfl
  | cons a l ih => simpa using ih

theorem bodyTables_setParaAt (body : List BodyChild) :
    ∀ (i : Nat) (f : Para → Para), bodyTables (setParaAt body i f) = bodyTables body := by
  induction body with
  | nil => intro i f; rfl
  | cons ch rest ih =>
    intro i f
    cases i with
    | zero => cases ch <;> rfl
    | succ n =>
      cases ch with
      | par q => exact ih n f
      | tbl t => exact congrArg (t :: ·) (ih n f)
      | other => exact ih n f

theorem bodyTables_mapPar (l : List PyItem) (g : PyItem → Para) :
    bodyTables (l.map fun it => BodyChild.par (g it)) = [] := by
  induction l with
  | nil => rfl
  | cons a l ih => exact ih

theorem bodyTables_spliceAt_pars (body : List BodyChild) (pos : Nat)
    (items : List BodyChild) (h : bodyTables items = []) :
    bodyTables (spliceAt body pos items) = bodyTables body := by
  unfold spliceAt
  rw [bodyTables_append, bodyTables_append, h, List.append_nil, ← bodyTables_append,
    List.take_append_drop]

theorem bodyTables_processListEntry (body : List BodyChild) (e : ListEntry) :
    bodyTables (processListEntry body e) = bodyTables body := by
  unfold processListEntry
  cases hf : findIdxById body e.pid with
  | none => rfl
  | some i =>
    cases he : e.items with
    | nil => exact bodyTables_setParaAt body i _
    | cons first restI =>
      rw [bodyTables_spliceAt_pars _ _ _ (bodyTables_mapPar restI _)]
      exact bodyTables_setParaAt body i _

theorem bodyTables_foldl (entries : List ListEntry) :
    ∀ body, bodyTables (entries.foldl processListEntry body) = bodyTables body := by
  induction entries with
  | nil => intro body; rfl
  | cons e rest ih =>
    intro body
    rw [List.foldl_cons, ih, bodyTables_processListEntry]

/-- **C10** Dynamic expansion is body-only: the list pass and the table pass
leave every section (headers and footers) untouched, and the list pass never
touches a table (hence no table-cell paragraph), whatever the document and
data. -/
theorem expansion_is_body_only (d : Doc) (data : DynData) :
    (expand_dynamic_lists d data).1.sections = d.sections
    ∧ (expand_dynamic_lists d data).1.tables = d.tables
    ∧ (expand_dynamic_tables d data).1.sections = d.sections := by
  refine ⟨rfl, ?_, rfl⟩
  show bodyTables ((collectEntries d.body data).reverse.foldl processListEntry d.body)
    = bodyTables d.body
  exact bodyTables_foldl _ d.body

/-! ## List expansion: the processing of one site -/

theorem findIdxById_append_par (front : List BodyChild) (p : Para) (rest : List BodyChild)
    (hfront : ∀ q ∈ parasOf front, q.id ≠ p.id) (hp : p.id ≠ none) :
    findIdxById (front ++ BodyChild.par p :: rest) p.id = some front.length := by
  induction front with
  | nil => simp [findIdxById, hp]
  | cons ch l ih =>
    cases ch with
    | par q =>
      have hq : q.id ≠ p.id := hfront q (List.mem_cons_self q (parasOf l))
      have htail := ih (fun q2 hq2 => hfront q2 (List.mem_cons_of_mem q hq2))
      simp [findIdxById, hq, htail]
    | tbl t =>
      have htail := ih (fun q2 hq2 => hfront q2 hq2)
      simp [findIdxById, htail]
    | other =>
      have htail := ih (fun q2 hq2 => hfront q2 hq2)
      simp [findIdxById, htail]

theorem processListEntry_at (front : List BodyChild) (p : Para) (rest : List BodyChild)
    (k : String) (es : List PyItem)
    (hfront : ∀ q ∈ parasOf front, q.id ≠ p.id) (hp : p.id ≠ none) :
    processListEntry (front ++ BodyChild.par p :: rest) ⟨p.id, k, es⟩
      = front ++ expandSite k es p ++ rest := by
  unfold processListEntry
  rw [findIdxById_append_par front p rest hfront hp]
  cases es with
  | nil =>
    simp only [expandSite]
    rw [setParaAt_mid]
    simp
  | cons first restI =>
    simp only
    rw [setParaAt_mid, get?_mid, spliceAt_mid]
    simp [expandSite]

theorem expandSite_ids (k : String) (es : List PyItem) (p : Para) :
    ∀ q ∈ parasOf (expandSite k es p), q.id = p.id ∨ q.id = none := by
  cases es with
  | nil =>
    intro q hq
    simp [expandSite, parasOf] at hq
    subst hq
    exact Or.inl rfl
  | cons first restI =>
    intro q hq
    have hq2 : q = ⟨p.id, p.style, [mkRun (bullet (strOfItem first))]⟩
        ∨ ∃ a ∈ restI, newPara (bullet (strOfItem a)) p.style = q := by
      simpa [expandSite, parasOf, List.filterMap_cons, List.filterMap_map] using hq
    rcases hq2 with rfl | ⟨a, -, rfl⟩
    · exact Or.inl rfl
    · exact Or.inr rfl

theorem expandBody_append (k : String) (es : List PyItem) (a b : List BodyChild) :
    expandBody k es (a ++ b) = expandBody k es a ++ expandBody k es b := by
  simp [expandBody, List.flatMap_append]

theorem siteEntries_append (k : String) (es : List PyItem) (a b : List BodyChild) :
    siteEntries k es (a ++ b) = siteEntries k es a ++ siteEntries k es b := by
  simp [siteEntries, parasOf_append, List.filterMap_append]

theorem foldl_processListEntry (k : String) (es : List PyItem) (front : List BodyChild) :
    ∀ (rest : List BodyChild),
      (∀ p ∈ parasOf front, p.id ≠ none) →
      ((parasOf front).map Para.id).Nodup →
      (∀ p ∈ parasOf front, ∀ q ∈ parasOf rest, p.id ≠ q.id) →
      (siteEntries k es front).reverse.foldl processListEntry (front ++ rest)
        = expandBody k es front ++ rest := by
  induction front using List.reverseRecOn with
  | nil =>
    intro rest _ _ _
    simp [siteEntries, expandBody, parasOf]
  | append_singleton front2 ch ih =>
    intro rest hsome hnodup hdisj
    have hpsplit : parasOf (front2 ++ [ch]) = parasOf front2 ++ parasOf [ch] :=
      parasOf_append front2 [ch]
    have hsome2 : ∀ p ∈ parasOf front2, p.id ≠ none := fun p hp =>
      hsome p (by rw [hpsplit]; exact List.mem_append_left _ hp)
    have hnodup2 : ((parasOf front2).map Para.id).Nodup := by
      rw [hpsplit, List.map_append] at hnodup
      exact (List.nodup_append.mp hnodup).1
    cases ch with
    | par p =>
      have hppar : parasOf [BodyChild.par p] = [p] := rfl
      have hpid_front : ∀ q ∈ parasOf front2, q.id ≠ p.id := by
        intro q hq heq
        rw [hpsplit, hppar, List.map_append] at hnodup
        have hdis := (List.nodup_append.mp hnodup).2.2
        exact hdis (List.mem_map_of_mem Para.id hq) (by simp [heq])
      have hpz : p.id ≠ none := by
        refine hsome p ?_
        rw [hpsplit, hppar]
        exact List.mem_append_right _ (by simp)
      have hbody : (front2 ++ [BodyChild.par p]) ++ rest = front2 ++ BodyChild.par p :: rest := by
        simp
      by_cases hc : pyContains p.text (tok k) = true
      · have hsE : siteEntries k es [BodyChild.par p] = [⟨p.id, k, es⟩] := by
          simp [siteEntries, parasOf, hc]
        rw [siteEntries_append, hsE, List.reverse_append, hbody]
        rw [show ([(⟨p.id, k, es⟩ : ListEntry)] : List ListEntry).reverse
          = [⟨p.id, k, es⟩] from rfl]
        rw [List.singleton_append, List.foldl_cons]
        rw [processListEntry_at front2 p rest k es hpid_front hpz]
        rw [List.append_assoc]
        rw [ih (expandSite k es p ++ rest) hsome2 hnodup2 ?_]
        · rw [expandBody_append,
            show expandBody k es [BodyChild.par p] = expandSite k es p from by
              simp [expandBody, hc]]
          simp [List.append_assoc]
        · intro q hq q2 hq2
          rw [parasOf_append] at hq2
          rcases List.mem_append.mp hq2 with hq2a | hq2b
          · rcases expandSite_ids k es p q2 hq2a with hqe | hqe
            · rw [hqe]; exact hpid_front q hq
            · rw [hqe]; exact hsome2 q hq
          · exact hdisj q (by rw [hpsplit]; exact List.mem_append_left _ hq) q2 hq2b
      · have hsE : siteEntries k es [BodyChild.par p] = [] := by
          simp [siteEntries, parasOf, hc]
        rw [siteEntries_append, hsE, List.append_nil, List.append_assoc]
        rw [ih ([BodyChild.par p] ++ rest) hsome2 hnodup2 ?_]
        · rw [expandBody_append,
            show expandBody k es [BodyChild.par p] = [BodyChild.par p] from by
              simp [expandBody, hc]]
          simp
        · intro q hq q2 hq2
          rw [parasOf_append, hppar] at hq2
          rcases List.mem_append.mp hq2 with hq2a | hq2b
          · rw [List.mem_singleton.mp hq2a]
            exact hpid_front q hq
          · exact hdisj q (by rw [hpsplit]; exact List.mem_append_left _ hq) q2 hq2b
    | tbl t =>
      rw [siteEntries_append, show siteEntries k es [BodyChild.tbl t] = [] from rfl,
        List.append_nil, List.append_assoc]
      rw [ih ([BodyChild.tbl t] ++ rest) hsome2 hnodup2 ?_]
      · rw [expandBody_append, show expandBody k es [BodyChild.tbl t] = [BodyChild.tbl t]
          from rfl]
        simp
      · intro p hp q hq
        rw [show parasOf ([BodyChild.tbl t] ++ rest) = parasOf rest from by
          simp [parasOf_append, parasOf]] at hq
        exact hdisj p (by rw [hpsplit]; exact List.mem_append_left _ hp) q hq
    | other =>
      rw [siteEntries_append, show siteEntries k es [BodyChild.other] = [] from rfl,
        List.append_nil, List.append_assoc]
      rw [ih ([BodyChild.other] ++ rest) hsome2 hnodup2 ?_]
      · rw [expandBody_append, show expandBody k es [BodyChild.other] = [BodyChild.other]
          from rfl]
        simp
      · intro p hp q hq
        rw [show parasOf ([BodyChild.other] ++ rest) = parasOf rest from by
          simp [parasOf_append, parasOf]] at hq
        exact hdisj p (by rw [hpsplit]; exact List.mem_append_left _ hp) q hq

/-! ## List expansion: the collected entries for a single array name -/

theorem flatMap_if {α β : Type} (c : α → Bool) (e : α → β) (ps : List α) :
    ps.flatMap (fun p => if c p then [e p] else []) = (ps.filter c).map e := by
  induction ps with
  | nil => rfl
  | cons p rest ih =>
    by_cases hc : c p = true <;>
      simp [List.flatMap_cons, List.filter_cons, hc, ih]

theorem filterMap_if {α β : Type} (c : α → Bool) (e : α → β) (ps : List α) :
    ps.filterMap (fun p => if c p then some (e p) else none) = (ps.filter c).map e := by
  induction ps with
  | nil => rfl
  | cons p rest ih =>
    by_cases hc : c p = true <;>
      simp [List.filterMap_cons, List.filter_cons, hc, ih]

theorem filterMap_entry_single (pre post : DynData) (k : String) (es : List PyItem)
    (hpre : ∀ kv ∈ pre, ∀ items, kv.2 ≠ PyVal.vlist items)
    (hpost : ∀ kv ∈ post, ∀ items, kv.2 ≠ PyVal.vlist items) (p : Para) :
    ((pre ++ (k, PyVal.vlist es) :: post).filterMap fun kv =>
        match kv.2 with
        | PyVal.vlist items =>
          if pyContains p.text (tok kv.1) then some (⟨p.id, kv.1, items⟩ : ListEntry)
          else none
        | PyVal.vstr _ => none)
      = if pyContains p.text (tok k) then [(⟨p.id, k, es⟩ : ListEntry)] else [] := by
  rw [List.filterMap_append]
  have h1 : (pre.filterMap fun kv =>
      match kv.2 with
      | PyVal.vlist items =>
        if pyContains p.text (tok kv.1) then some (⟨p.id, kv.1, items⟩ : ListEntry)
        else none
      | PyVal.vstr _ => none) = [] := by
    rw [List.filterMap_eq_nil_iff]
    intro kv hkv
    rcases hv : kv.2 with s | items
    · simp [hv]
    · exact absurd hv (hpre kv hkv items)
  have h2 : (post.filterMap fun kv =>
      match kv.2 with
      | PyVal.vlist items =>
        if pyContains p.text (tok kv.1) then some (⟨p.id, kv.1, items⟩ : ListEntry)
        else none
      | PyVal.vstr _ => none) = [] := by
    rw [List.filterMap_eq_nil_iff]
    intro kv hkv
    rcases hv : kv.2 with s | items
    · simp [hv]
    · exact absurd hv (hpost kv hkv items)
  rw [h1, List.nil_append, List.filterMap_cons]
  by_cases hc : pyContains p.text (tok k) = true <;> simp [hc, h2]

theorem collectEntries_single (body : List BodyChild) (pre post : DynData) (k : String)
    (es : List PyItem)
    (hpre : ∀ kv ∈ pre, ∀ items, kv.2 ≠ PyVal.vlist items)
    (hpost : ∀ kv ∈ post, ∀ items, kv.2 ≠ PyVal.vlist items) :
    collectEntries body (pre ++ (k, PyVal.vlist es) :: post) = siteEntries k es body := by
  unfold collectEntries siteEntries
  rw [show (parasOf body).flatMap (fun p =>
        (pre ++ (k, PyVal.vlist es) :: post).filterMap fun kv =>
          match kv.2 with
          | PyVal.vlist items =>
            if pyContains p.text (tok kv.1) then some (⟨p.id, kv.1, items⟩ : ListEntry)
            else none
          | PyVal.vstr _ => none)
      = (parasOf body).flatMap (fun p =>
          if pyContains p.text (tok k) then [(⟨p.id, k, es⟩ : ListEntry)] else []) from by
    exact List.flatMap_congr (fun p _ => filterMap_entry_single pre post k es hpre hpost p)]
  rw [flatMap_if, filterMap_if]

theorem siteEntries_eq_map (k : String) (es : List PyItem) (body : List BodyChild) :
    siteEntries k es body
      = ((parasOf body).filter fun p => pyContains p.text (tok k)).map
          (fun p => (⟨p.id, k, es⟩ : ListEntry)) := by
  unfold siteEntries
  rw [filterMap_if]

theorem siteEntries_count (k : String) (es : List PyItem) (body : List BodyChild) :
    ((siteEntries k es body).filter fun e => !e.items.isEmpty).length
      = if es.isEmpty then 0
        else ((parasOf body).filter fun p => pyContains p.text (tok k)).length := by
  rw [siteEntries_eq_map, List.filter_map]
  cases es with
  | nil => simp [Function.comp]
  | cons a as => simp [Function.comp]

/-- **C3** List expansion cardinality: with a mapping whose only array-valued
entry is `k ↦ es` and a body whose top-level paragraphs have sound element
identities, `expand_dynamic_lists` rewrites every body paragraph containing
`{{k}}` into its expansion site — for `N ≥ 1` elements exactly `N`
paragraphs whose texts are the bullet marker followed by the elements, in
array order (the first reusing the template paragraph, the rest new
paragraphs in its style) — leaves every other body child unchanged in
relative order, and for `N = 0` strips the token from the paragraph, without
error; the returned count is the number of non-empty sites. -/
theorem list_expansion_cardinality (d : Doc) (pre post : DynData) (k : String)
    (es : List PyItem)
    (hpre : ∀ kv ∈ pre, ∀ items, kv.2 ≠ PyVal.vlist items)
    (hpost : ∀ kv ∈ post, ∀ items, kv.2 ≠ PyVal.vlist items)
    (hids : idsOk d.body) :
    expand_dynamic_lists d (pre ++ (k, PyVal.vlist es) :: post)
      = ({ d with body := expandBody k es d.body },
         if es.isEmpty then 0
         else (d.paragraphs.filter fun p => pyContains p.text (tok k)).length) := by
  unfold expand_dynamic_lists
  rw [collectEntries_single d.body pre post k es hpre hpost]
  have hfold := foldl_processListEntry k es d.body [] hids.1 hids.2
    (fun p _ q hq => absurd hq (List.not_mem_nil q))
  simp only [List.append_nil] at hfold
  dsimp only
  rw [hfold, siteEntries_count]
  rfl

/-- Witness for C3: Scenario 2 in context — `{{items}}` with `["A","B","C"]`
expands into exactly the three bulleted paragraphs at the site, with the
surrounding paragraphs untouched in order, and an empty array strips the
token without error. -/
theorem list_expansion_cardinality_witness :
    expand_dynamic_lists docC3 [("items", PyVal.vlist itemsABC)]
      = ({ docC3 with body := expandBody "items" itemsABC docC3.body }, 1)
      ∧ ((expand_dynamic_lists docC3 [("items", PyVal.vlist itemsABC)]).1.paragraphs.map
          Para.text) = ["pre", "• A", "• B", "• C", "post"]
      ∧ ((expand_dynamic_lists docC3 [("items", PyVal.vlist [])]).1.paragraphs.map
          Para.text) = ["pre", "", "post"] := by
  refine ⟨?_, by decide, by decide⟩
  have h := list_expansion_cardinality docC3 [] [] "items" itemsABC
    (fun kv hkv => absurd hkv (List.not_mem_nil kv))
    (fun kv hkv => absurd hkv (List.not_mem_nil kv))
    ⟨by decide, by decide⟩
  rw [show ([] : DynData) ++ ("items", PyVal.vlist itemsABC) :: ([] : DynData)
      = [("items", PyVal.vlist itemsABC)] from rfl] at h
  rw [h]
  rw [show (if itemsABC.isEmpty then 0
      else ((docC3.paragraphs.filter fun p => pyContains p.text (tok "items")).length)) = 1
    from by decide]

/-! ## Table expansion: machinery -/

theorem filterMap_tr_others (os : List TblChild) (hos : ∀ ch ∈ os, ch = TblChild.other) :
    os.filterMap
        (fun ch => match ch with | TblChild.tr r => some r | TblChild.other => none)
      = [] := by
  induction os with
  | nil => rfl
  | cons ch rest ih =>
    rw [hos ch (List.mem_cons_self ch rest)]
    simp only [List.filterMap_cons]
    exact ih (fun c hc => hos c (List.mem_cons_of_mem ch hc))

theorem filterMap_tr_map (rs : List Row) :
    (rs.map TblChild.tr).filterMap
        (fun ch => match ch with | TblChild.tr r => some r | TblChild.other => none)
      = rs := by
  induction rs with
  | nil => rfl
  | cons r rest ih => simp only [List.map_cons, List.filterMap_cons, ih]

theorem rows_other_tr (os : List TblChild) (hos : ∀ ch ∈ os, ch = TblChild.other) (R : Row) :
    Table.rows ⟨TblChild.other :: os ++ [TblChild.tr R]⟩ = [R] := by
  show (os ++ [TblChild.tr R]).filterMap _ = [R]
  rw [List.filterMap_append, filterMap_tr_others os hos]
  rfl

theorem rows_mk_append (a b : List TblChild) :
    Table.rows ⟨a ++ b⟩ = Table.rows ⟨a⟩ ++ Table.rows ⟨b⟩ := by
  unfold Table.rows
  exact List.filterMap_append a b _

theorem rows_mk_mapTr (rs : List Row) : Table.rows ⟨rs.map TblChild.tr⟩ = rs :=
  filterMap_tr_map rs

theorem rows_mk_others (os : List TblChild) (hos : ∀ ch ∈ os, ch = TblChild.other) :
    Table.rows ⟨os⟩ = [] :=
  filterMap_tr_others os hos

theorem modifyRow_through (os : List TblChild) (hos : ∀ ch ∈ os, ch = TblChild.other)
    (R : Row) (f : Row → Row) :
    modifyRow (os ++ [TblChild.tr R]) 0 f = os ++ [TblChild.tr (f R)] := by
  induction os with
  | nil => rfl
  | cons ch rest ih =>
    rw [hos ch (List.mem_cons_self ch rest)]
    show TblChild.other :: modifyRow (rest ++ [TblChild.tr R]) 0 f
      = TblChild.other :: (rest ++ [TblChild.tr (f R)])
    exact congrArg _ (ih (fun c hc => hos c (List.mem_cons_of_mem ch hc)))

theorem fillCells_comp (fmts : List String) (fields fields2 : List (String × String))
    (key : String) (r : Row) :
    ∀ i, fillCells fmts fields key i (fillCells fmts fields2 key i r)
      = fillCells fmts fields key i r := by
  induction r with
  | nil => intro i; rfl
  | cons c rest ih =>
    intro i
    by_cases hi : i < fmts.length
    · cases c with
      | nil => simp [fillCells, hi, ih]
      | cons p ps => simp [fillCells, hi, ih]
    · simp [fillCells, hi, ih]

theorem fillRow_comp (fmts : List String) (key : String) (d d2 : PyItem) (R : Row) :
    fillRow fmts d key (fillRow fmts d2 key R) = fillRow fmts d key R :=
  fillCells_comp fmts _ _ key R 0

theorem fillCells_length (fmts : List String) (fields : List (String × String))
    (key : String) (r : Row) :
    ∀ i, (fillCells fmts fields key i r).length = r.length := by
  induction r with
  | nil => intro i; rfl
  | cons c rest ih =>
    intro i
    simp only [fillCells, List.length_cons, ih]

theorem fillRow_length (fmts : List String) (d : PyItem) (key : String) (r : Row) :
    (fillRow fmts d key r).length = r.length :=
  fillCells_length fmts _ key r 0

theorem step_inv (fmts : List String) (key : String) (A : Row) (W : List TblChild)
    (d : PyItem) :
    fillRowAt (add_table_row ⟨TblChild.other :: TblChild.tr A :: W⟩ 1) 1 fmts d key
      = ⟨TblChild.other :: TblChild.tr A :: TblChild.tr (fillRow fmts d key A) :: W⟩ := by
  unfold add_table_row fillRowAt
  dsimp only
  have hsrc : (Table.rows ⟨TblChild.other :: TblChild.tr A :: W⟩).getD (1 - 1) [] = A := rfl
  rw [hsrc]
  have hins : (TblChild.other :: TblChild.tr A :: W).insertIdx 1 (TblChild.tr A)
      = TblChild.other :: TblChild.tr A :: TblChild.tr A :: W := by
    simp [List.insertIdx_succ_cons, List.insertIdx_zero]
  rw [hins]
  rfl

theorem foldl_step (fmts : List String) (key : String) (A : Row) (ds : List PyItem) :
    ∀ W : List TblChild,
      ds.foldl (fun acc d => fillRowAt (add_table_row acc 1) 1 fmts d key)
          ⟨TblChild.other :: TblChild.tr A :: W⟩
        = ⟨TblChild.other :: TblChild.tr A ::
            ((ds.map fun d => TblChild.tr (fillRow fmts d key A)).reverse ++ W)⟩ := by
  induction ds with
  | nil => intro W; simp
  | cons d ds ih =>
    intro W
    rw [List.foldl_cons, step_inv]
    rw [ih (TblChild.tr (fillRow fmts d key A) :: W)]
    simp [List.append_assoc]

theorem findTemplate_empty_list (k : String) (rows : List Row) :
    findTemplate [(k, PyVal.vlist [])] rows = none := by
  induction rows with
  | nil => rfl
  | cons r rest ih =>
    show (match (match (none : Option (String × List PyItem)) with
        | _ => if rowMatchKey k [] r then some (k, ([] : List PyItem)) else none) with
      | some (k2, items) => some (0, k2, items)
      | none => (findTemplate [(k, PyVal.vlist [])] rest).map fun t => (t.1 + 1, t.2.1, t.2.2))
      = none
    rw [show rowMatchKey k ([] : List PyItem) r = false from rfl]
    simp [ih]

theorem expand_tables_empty_list (d : Doc) (k : String) :
    expand_dynamic_tables d [(k, PyVal.vlist [])] = (d, 0) := by
  unfold expand_dynamic_tables
  dsimp only
  have hbody : ∀ body : List BodyChild,
      body.foldr (expandTableChild [(k, PyVal.vlist [])]) ([], 0) = (body, 0) := by
    intro body
    induction body with
    | nil => rfl
    | cons ch rest ih =>
      rw [List.foldr_cons, ih]
      cases ch with
      | tbl t =>
        show (match findTemplate [(k, PyVal.vlist [])] t.rows with
          | some (tIdx, k2, items) =>
            (BodyChild.tbl (expand_table_rows t tIdx items k2) :: rest, 0 + 1)
          | none => (BodyChild.tbl t :: rest, 0)) = (BodyChild.tbl t :: rest, 0)
        rw [findTemplate_empty_list]
      | par p => rfl
      | other => rfl
  rw [hbody]

/-- **C2 counterexample** Expanding a single-template-row table with three
data elements X, Y, Z produces the rows in the order X, Z, Y — not the
claimed array order X, Y, Z — and an empty array leaves the table (and its
template token) entirely unchanged rather than clearing the template row's
content. -/
theorem table_expansion_order_counterexample :
    ((expand_dynamic_tables ⟨[BodyChild.tbl tblA], []⟩ dataA).1.tables.map
        (fun t => t.rows.map (fun r => r.map cellText))) = [[["X"], ["Z"], ["Y"]]]
    ∧ ([[["X"], ["Z"], ["Y"]]] : List (List (List String))) ≠ [[["X"], ["Y"], ["Z"]]]
    ∧ expand_dynamic_tables ⟨[BodyChild.tbl tblA], []⟩ [("rows", PyVal.vlist [])]
        = (⟨[BodyChild.tbl tblA], []⟩, 0) := by
  refine ⟨by decide, by decide, by decide⟩

/-- **C2 amended** For a table whose `w:tbl` element has a leading non-row
child (as python-docx tables do: `w:tblPr`, `w:tblGrid`) and whose only row
is the template row, expanding with data elements `d0 :: rest` keeps the
claimed cardinality — row count `original − 1 + M` with every row keeping
the template's cell count, each row populated through the captured cell
formats — but the template row ends up holding the *first* element while the
remaining elements appear after it in *reverse* array order (the clone is
inserted at the fixed raw child index `template_row_idx + 1` each
iteration); an empty array performs no expansion at all: the table is left
unchanged and the template content is not removed. -/
theorem table_expansion_reverse_order (os : List TblChild) (R : Row) (key : String)
    (d0 : PyItem) (rest : List PyItem)
    (hos : ∀ ch ∈ os, ch = TblChild.other) :
    ((expand_table_rows ⟨TblChild.other :: os ++ [TblChild.tr R]⟩ 0 (d0 :: rest) key).rows
        = fillRow (cellFormats R) d0 key R
            :: (rest.map fun d => fillRow (cellFormats R) d key R).reverse)
    ∧ ((expand_table_rows ⟨TblChild.other :: os ++ [TblChild.tr R]⟩ 0 (d0 :: rest)
          key).rows.length = 1 - 1 + (d0 :: rest).length)
    ∧ (∀ r ∈ (expand_table_rows ⟨TblChild.other :: os ++ [TblChild.tr R]⟩ 0 (d0 :: rest)
          key).rows, r.length = R.length)
    ∧ (∀ (d2 : Doc) (k2 : String), expand_dynamic_tables d2 [(k2, PyVal.vlist [])] = (d2, 0)) := by
  have hrows : Table.rows ⟨TblChild.other :: os ++ [TblChild.tr R]⟩ = [R] :=
    rows_other_tr os hos R
  have h0 : expand_table_rows ⟨TblChild.other :: os ++ [TblChild.tr R]⟩ 0 (d0 :: rest) key
      = rest.foldl
          (fun acc item => fillRowAt (add_table_row acc 1) 1
            (cellFormats ((Table.rows ⟨TblChild.other :: os ++ [TblChild.tr R]⟩).getD 0 []))
            item key)
          (fillRowAt ⟨TblChild.other :: os ++ [TblChild.tr R]⟩ 0
            (cellFormats ((Table.rows ⟨TblChild.other :: os ++ [TblChild.tr R]⟩).getD 0 []))
            d0 key) := rfl
  rw [hrows] at h0
  have hfm : ([R].getD 0 []) = R := rfl
  rw [hfm] at h0
  have ht1 : fillRowAt ⟨TblChild.other :: os ++ [TblChild.tr R]⟩ 0 (cellFormats R) d0 key
      = ⟨TblChild.other :: os ++ [TblChild.tr (fillRow (cellFormats R) d0 key R)]⟩ := by
    unfold fillRowAt
    show (⟨TblChild.other :: modifyRow (os ++ [TblChild.tr R]) 0
      (fillRow (cellFormats R) d0 key)⟩ : Table) = _
    rw [modifyRow_through os hos]
    rfl
  rw [ht1] at h0
  have hmain : (expand_table_rows ⟨TblChild.other :: os ++ [TblChild.tr R]⟩ 0 (d0 :: rest)
      key).rows
      = fillRow (cellFormats R) d0 key R
          :: (rest.map fun d => fillRow (cellFormats R) d key R).reverse := by
    cases rest with
    | nil =>
      rw [h0]
      simp only [List.foldl_nil]
      rw [rows_other_tr os hos]
      rfl
    | cons d1 rest2 =>
      rw [h0, List.foldl_cons]
      have hstep1 : fillRowAt
          (add_table_row ⟨TblChild.other :: os ++
            [TblChild.tr (fillRow (cellFormats R) d0 key R)]⟩ 1) 1 (cellFormats R) d1 key
          = ⟨TblChild.other :: TblChild.tr (fillRow (cellFormats R) d0 key R) ::
              (os ++ [TblChild.tr (fillRow (cellFormats R) d1 key R)])⟩ := by
        unfold add_table_row fillRowAt
        dsimp only
        rw [show (Table.rows ⟨TblChild.other :: os ++
            [TblChild.tr (fillRow (cellFormats R) d0 key R)]⟩).getD (1 - 1) []
          = fillRow (cellFormats R) d0 key R from by rw [rows_other_tr os hos]; rfl]
        rw [show (TblChild.other :: os ++
            [TblChild.tr (fillRow (cellFormats R) d0 key R)]).insertIdx 1
              (TblChild.tr (fillRow (cellFormats R) d0 key R))
          = TblChild.other :: TblChild.tr (fillRow (cellFormats R) d0 key R) ::
              (os ++ [TblChild.tr (fillRow (cellFormats R) d0 key R)]) from by
          simp [List.insertIdx_succ_cons, List.insertIdx_zero]]
        show (⟨TblChild.other :: TblChild.tr (fillRow (cellFormats R) d0 key R) ::
          modifyRow (os ++ [TblChild.tr (fillRow (cellFormats R) d0 key R)]) 0
            (fillRow (cellFormats R) d1 key)⟩ : Table) = _
        rw [modifyRow_through os hos, fillRow_comp]
      rw [hstep1, foldl_step]
      show fillRow (cellFormats R) d0 key R ::
          Table.rows ⟨(rest2.map fun d =>
            TblChild.tr (fillRow (cellFormats R) d key
              (fillRow (cellFormats R) d0 key R))).reverse
            ++ (os ++ [TblChild.tr (fillRow (cellFormats R) d1 key R)])⟩
        = _
      rw [show (rest2.map fun d =>
          TblChild.tr (fillRow (cellFormats R) d key (fillRow (cellFormats R) d0 key R)))
        = rest2.map fun d => TblChild.tr (fillRow (cellFormats R) d key R) from
        List.map_congr_left (fun d _ => by rw [fillRow_comp])]
      rw [show (rest2.map fun d => TblChild.tr (fillRow (cellFormats R) d key R)).reverse
          = (rest2.map fun d => fillRow (cellFormats R) d key R).reverse.map TblChild.tr from by
        simp [List.map_reverse, List.map_map, Function.comp]]
      rw [rows_mk_append, rows_mk_append, rows_mk_mapTr, rows_mk_others os hos]
      rw [show Table.rows ⟨[TblChild.tr (fillRow (cellFormats R) d1 key R)]⟩
        = [fillRow (cellFormats R) d1 key R] from rfl]
      simp [List.map_cons, List.reverse_cons]
  refine ⟨hmain, ?_, ?_, fun d2 k2 => expand_tables_empty_list d2 k2⟩
  · rw [hmain]
    simp
  · intro r hr
    rw [hmain] at hr
    rcases List.mem_cons.mp hr with rfl | hr2
    · exact fillRow_length _ _ _ _
    · rw [List.mem_reverse] at hr2
      obtain ⟨d, -, rfl⟩ := List.mem_map.mp hr2
      exact fillRow_length _ _ _ _

/-- Witness for the amended C2 at the concrete counterexample table: three
elements give rows X, Z, Y with row count 3 and cell count 1 throughout. -/
theorem table_expansion_reverse_order_witness :
    (expand_table_rows tblA 0
        [PyItem.iobj [("v", "X")], PyItem.iobj [("v", "Y")], PyItem.iobj [("v", "Z")]]
        "rows").rows.map (fun r => r.map cellText) = [["X"], ["Z"], ["Y"]]
    ∧ (expand_table_rows tblA 0
        [PyItem.iobj [("v", "X")], PyItem.iobj [("v", "Y")], PyItem.iobj [("v", "Z")]]
        "rows").rows.length = 3 := by
  have h := table_expansion_reverse_order [TblChild.other] (row1 1 (nestedTok "rows" "v"))
    "rows" (PyItem.iobj [("v", "X")])
    [PyItem.iobj [("v", "Y")], PyItem.iobj [("v", "Z")]]
    (by intro ch hch; simpa using List.mem_singleton.mp hch)
  constructor
  · rw [show tblA = ⟨TblChild.other :: [TblChild.other] ++
      [TblChild.tr (row1 1 (nestedTok "rows" "v"))]⟩ from rfl, h.1]
    decide
  · rw [show tblA = ⟨TblChild.other :: [TblChild.other] ++
      [TblChild.tr (row1 1 (nestedTok "rows" "v"))]⟩ from rfl, h.2.1]
    rfl

/-! ## ImageReplacer lemmas -/

/-- The in-place blob swap keeps every relationship id and relationship
type: only the target media of the selected image relationship changes. -/
theorem updateNthImageRel_skeleton (f : Media → Media) :
    ∀ (rels : List (String × Rel)) (j : Nat),
      (updateNthImageRel f rels j).map (fun e => (e.1, e.2.reltype))
        = rels.map (fun e => (e.1, e.2.reltype))
  | [], _ => rfl
  | e :: rest, j => by
    unfold updateNthImageRel
    by_cases him : pyContains e.2.reltype "image"
    · rw [if_pos him]
      cases j with
      | zero => rfl
      | succ j2 =>
        simp only [List.map_cons]
        rw [updateNthImageRel_skeleton f rest j2]
    · rw [if_neg him]
      simp only [List.map_cons]
      rw [updateNthImageRel_skeleton f rest j]

/-- There is a single position such that every other entry of the
relationship table is untouched by the swap. -/
theorem updateNthImageRel_untouched (f : Media → Media) :
    ∀ (rels : List (String × Rel)) (j : Nat),
      ∃ pos, ∀ i, i ≠ pos →
        (updateNthImageRel f rels j).get? i = rels.get? i
  | [], _ => ⟨0, fun i _ => by cases i <;> rfl⟩
  | e :: rest, j => by
    unfold updateNthImageRel
    by_cases him : pyContains e.2.reltype "image"
    · rw [if_pos him]
      cases j with
      | zero =>
        refine ⟨0, ?_⟩
        intro i hi
        cases i with
        | zero => exact absurd rfl hi
        | succ i2 => rfl
      | succ j2 =>
        obtain ⟨pos, h1⟩ := updateNthImageRel_untouched f rest j2
        refine ⟨pos + 1, ?_⟩
        intro i hi
        cases i with
        | zero => rfl
        | succ i2 => exact h1 i2 (fun hh => hi (by rw [hh]))
    · rw [if_neg him]
      obtain ⟨pos, h1⟩ := updateNthImageRel_untouched f rest j
      refine ⟨pos + 1, ?_⟩
      intro i hi
      cases i with
      | zero => rfl
      | succ i2 => exact h1 i2 (fun hh => hi (by rw [hh]))

/-- A resolved Python index is in range. -/
theorem pyIdx_lt {len : Nat} {i : Int} {m : Nat} (h : pyIdx len i = some m) :
    m < len := by
  unfold pyIdx at h
  split at h
  · split at h
    · injection h with h2
      omega
    · exact Option.noConfusion h
  · split at h
    · injection h with h2
      omega
    · exact Option.noConfusion h

/-- A resolved Python index implies the raw index is below the length. -/
theorem pyIdx_int_lt {len : Nat} {i : Int} {m : Nat} (h : pyIdx len i = some m) :
    i < (len : Int) := by
  unfold pyIdx at h
  split at h
  · split at h
    · omega
    · exact Option.noConfusion h
  · omega

/-- In-range `get?` yields the `getD` value. -/
theorem get?_getD_img {α : Type} (dflt : α) :
    ∀ (l : List α) (i : Nat), i < l.length → l.get? i = some (l.getD i dflt)
  | [], _, h => absurd h (by simp)
  | _ :: _, 0, _ => rfl
  | _ :: t, i + 1, h => get?_getD_img dflt t i (by simpa using h)

/-- Setting a list position to the value it already holds is the
identity. -/
theorem set_same_img {α : Type} :
    ∀ (l : List α) (i : Nat) (a : α), l.get? i = some a → l.set i a = l
  | [], i, _, h => by cases i <;> exact Option.noConfusion h
  | b :: t, 0, a, h => by
    injection h with h2
    show a :: t = b :: t
    rw [h2]
  | b :: t, i + 1, a, h => by
    show b :: t.set i a = b :: t
    rw [set_same_img t i a h]

/-- A `False` return of the header replacer leaves the document
untouched. -/
theorem replace_header_false_eq (d : ImgDoc) (fs : FS) (si ii : Int) (path : String)
    (d2 : ImgDoc) (h : replace_header_image d fs si path ii = .ok (false, d2)) :
    d2 = d := by
  unfold replace_header_image at h
  split at h
  · simp only [Except.ok.injEq, Prod.mk.injEq] at h
    exact h.2.symm
  · split at h
    · simp only [Except.ok.injEq, Prod.mk.injEq] at h
      exact h.2.symm
    · split at h
      · exact Except.noConfusion h
      · dsimp only at h
        split at h
        · simp only [Except.ok.injEq, Prod.mk.injEq] at h
          exact h.2.symm
        · split at h
          · simp only [Except.ok.injEq, Prod.mk.injEq] at h
            exact h.2.symm
          · split at h
            · exact Except.noConfusion h
            · simp only [Except.ok.injEq, Prod.mk.injEq] at h
              exact Bool.noConfusion h.1

/-- A `False` return of the footer replacer leaves the document
untouched. -/
theorem replace_footer_false_eq (d : ImgDoc) (fs : FS) (si ii : Int) (path : String)
    (d2 : ImgDoc) (h : replace_footer_image d fs si path ii = .ok (false, d2)) :
    d2 = d := by
  unfold replace_footer_image at h
  split at h
  · simp only [Except.ok.injEq, Prod.mk.injEq] at h
    exact h.2.symm
  · split at h
    · simp only [Except.ok.injEq, Prod.mk.injEq] at h
      exact h.2.symm
    · split at h
      · exact Except.noConfusion h
      · dsimp only at h
        split at h
        · simp only [Except.ok.injEq, Prod.mk.injEq] at h
          exact h.2.symm
        · split at h
          · simp only [Except.ok.injEq, Prod.mk.injEq] at h
            exact h.2.symm
          · split at h
            · exact Except.noConfusion h
            · simp only [Except.ok.injEq, Prod.mk.injEq] at h
              exact Bool.noConfusion h.1

/-- A `False` return of the body replacer leaves the document untouched. -/
theorem replace_body_false_eq (d : ImgDoc) (fs : FS) (ii : Int) (path : String)
    (d2 : ImgDoc) (h : replace_body_image_by_index d fs ii path = .ok (false, d2)) :
    d2 = d := by
  unfold replace_body_image_by_index at h
  split at h
  · simp only [Except.ok.injEq, Prod.mk.injEq] at h
    exact h.2.symm
  · dsimp only at h
    split at h
    · simp only [Except.ok.injEq, Prod.mk.injEq] at h
      exact h.2.symm
    · split at h
      · exact Except.noConfusion h
      · simp only [Except.ok.injEq, Prod.mk.injEq] at h
        exact Bool.noConfusion h.1

/-- A `False`-valued dispatch leaves the document untouched. -/
theorem batchResult_false_eq (d : ImgDoc) (fs : FS) (key path : String) (d2 : ImgDoc)
    (h : batchResult d fs key path = .ok (false, d2)) : d2 = d := by
  unfold batchResult at h
  rcases hp : pySplit key '_' with _ | ⟨location, rest⟩
  · rw [hp] at h
    simp only [Except.ok.injEq, Prod.mk.injEq] at h
    exact h.2.symm
  · rw [hp] at h
    dsimp only at h
    by_cases h1 : location = "header"
    · rw [if_pos h1] at h
      cases rest with
      | nil => exact Except.noConfusion h
      | cons p1 rest2 =>
        dsimp only at h
        cases hpi : pyInt? p1 with
        | none => rw [hpi] at h; exact Except.noConfusion h
        | some si =>
          rw [hpi] at h
          dsimp only at h
          cases rest2 with
          | nil => exact replace_header_false_eq d fs si 0 path d2 h
          | cons p2 r3 =>
            dsimp only at h
            cases hpi2 : pyInt? p2 with
            | none => rw [hpi2] at h; exact Except.noConfusion h
            | some ii =>
              rw [hpi2] at h
              exact replace_header_false_eq d fs si ii path d2 h
    · rw [if_neg h1] at h
      by_cases h2 : location = "footer"
      · rw [if_pos h2] at h
        cases rest with
        | nil => exact Except.noConfusion h
        | cons p1 rest2 =>
          dsimp only at h
          cases hpi : pyInt? p1 with
          | none => rw [hpi] at h; exact Except.noConfusion h
          | some si =>
            rw [hpi] at h
            dsimp only at h
            cases rest2 with
            | nil => exact replace_footer_false_eq d fs si 0 path d2 h
            | cons p2 r3 =>
              dsimp only at h
              cases hpi2 : pyInt? p2 with
              | none => rw [hpi2] at h; exact Except.noConfusion h
              | some ii =>
                rw [hpi2] at h
                exact replace_footer_false_eq d fs si ii path d2 h
      · rw [if_neg h2] at h
        by_cases h3 : location = "body"
        · rw [if_pos h3] at h
          cases rest with
          | nil => exact Except.noConfusion h
          | cons p1 r2 =>
            dsimp only at h
            cases hpi : pyInt? p1 with
            | none => rw [hpi] at h; exact Except.noConfusion h
            | some ii =>
              rw [hpi] at h
              exact replace_body_false_eq d fs ii path d2 h
        · rw [if_neg h3] at h
          simp only [Except.ok.injEq, Prod.mk.injEq] at h
          exact h.2.symm

/-- A key whose result is `false` leaves the threaded document untouched. -/
theorem batchOne_false_snd (d : ImgDoc) (fs : FS) (key path : String)
    (h : (batchOne d fs key path).1 = false) : (batchOne d fs key path).2 = d := by
  unfold batchOne at h ⊢
  cases hr : batchResult d fs key path with
  | error e => rfl
  | ok r =>
    rw [hr] at h
    cases r with
    | mk b d2 =>
      exact batchResult_false_eq d fs key path d2
        (by rw [hr, show b = false from h])

/-- Every key of the batch gets a boolean result, in order. -/
theorem replace_images_batch_keys (fs : FS) :
    ∀ (m : List (String × String)) (d : ImgDoc),
      (replace_images_batch d fs m).1.map Prod.fst = m.map Prod.fst
  | [], _ => rfl
  | (k, p) :: rest, d => by
    simp only [replace_images_batch, List.map_cons]
    exact congrArg (k :: ·) (replace_images_batch_keys fs rest _)

/-- The batch splits around any decomposition of the key list. -/
theorem replace_images_batch_append (fs : FS) :
    ∀ (m1 : List (String × String)) (d : ImgDoc) (m2 : List (String × String)),
      replace_images_batch d fs (m1 ++ m2)
        = ((replace_images_batch d fs m1).1
            ++ (replace_images_batch (replace_images_batch d fs m1).2 fs m2).1,
           (replace_images_batch (replace_images_batch d fs m1).2 fs m2).2)
  | [], _, _ => rfl
  | (k, p) :: rest, d, m2 => by
    show ((k, (batchOne d fs k p).1) ::
        (replace_images_batch (batchOne d fs k p).2 fs (rest ++ m2)).1,
        (replace_images_batch (batchOne d fs k p).2 fs (rest ++ m2)).2) = _
    rw [replace_images_batch_append fs rest (batchOne d fs k p).2 m2]
    rfl

/-! ## Image claim theorems -/

/-- **C7** Media swap purity: a non-raising call of the body image replacer
leaves the sections, the body drawing elements (extent, wrapping, position
payload) and the relationship ids and types unchanged, and at most one
relationship entry — the resolved image — differs at all, so only that
entry's target media (blob and content type) can change; header and footer
replacement likewise never touch the body or any drawing element of any
header or footer part. -/
theorem media_swap_purity (d : ImgDoc) (fs : FS) (path : String) :
    (∀ (ii : Int) (res : Bool × ImgDoc),
        replace_body_image_by_index d fs ii path = .ok res →
        res.2.sections = d.sections
        ∧ res.2.body.drawings = d.body.drawings
        ∧ (res.2.body.rels.map fun e => (e.1, e.2.reltype))
            = (d.body.rels.map fun e => (e.1, e.2.reltype))
        ∧ ∃ pos, ∀ i, i ≠ pos → res.2.body.rels.get? i = d.body.rels.get? i)
    ∧ (∀ (si ii : Int) (res : Bool × ImgDoc),
        replace_header_image d fs si path ii = .ok res →
        res.2.body = d.body
        ∧ (res.2.sections.map fun s =>
              (s.header.map ImgPart.drawings, s.footer.map ImgPart.drawings))
            = (d.sections.map fun s =>
              (s.header.map ImgPart.drawings, s.footer.map ImgPart.drawings)))
    ∧ (∀ (si ii : Int) (res : Bool × ImgDoc),
        replace_footer_image d fs si path ii = .ok res →
        res.2.body = d.body
        ∧ (res.2.sections.map fun s =>
              (s.header.map ImgPart.drawings, s.footer.map ImgPart.drawings))
            = (d.sections.map fun s =>
              (s.header.map ImgPart.drawings, s.footer.map ImgPart.drawings))) := by
  refine ⟨?_, ?_, ?_⟩
  · intro ii res h
    unfold replace_body_image_by_index at h
    cases hread : fsRead fs path with
    | none =>
      rw [hread] at h
      cases h
      exact ⟨rfl, rfl, rfl, 0, fun i _ => rfl⟩
    | some data =>
      rw [hread] at h
      dsimp only at h
      by_cases hlen : ((imageRels d.body.rels).length : Int) ≤ ii
      · rw [if_pos hlen] at h
        cases h
        exact ⟨rfl, rfl, rfl, 0, fun i _ => rfl⟩
      · rw [if_neg hlen] at h
        cases hidx : pyIdx (imageRels d.body.rels).length ii with
        | none => rw [hidx] at h; exact Except.noConfusion h
        | some j =>
          rw [hidx] at h
          cases h
          exact ⟨rfl, rfl, updateNthImageRel_skeleton (swapMedia data path) d.body.rels j,
            updateNthImageRel_untouched (swapMedia data path) d.body.rels j⟩
  · intro si ii res h
    unfold replace_header_image at h
    by_cases hsec : (d.sections.length : Int) ≤ si
    · rw [if_pos hsec] at h
      cases h
      exact ⟨rfl, rfl⟩
    · rw [if_neg hsec] at h
      cases hread : fsRead fs path with
      | none => rw [hread] at h; cases h; exact ⟨rfl, rfl⟩
      | some data =>
        rw [hread] at h
        cases hidx : pyIdx d.sections.length si with
        | none => rw [hidx] at h; exact Except.noConfusion h
        | some m =>
          rw [hidx] at h
          dsimp only at h
          cases hhd : (d.sections.getD m ⟨none, none⟩).header with
          | none => rw [hhd] at h; cases h; exact ⟨rfl, rfl⟩
          | some hd =>
            rw [hhd] at h
            dsimp only at h
            by_cases hlen : ((imageRels hd.rels).length : Int) ≤ ii
            · rw [if_pos hlen] at h
              cases h
              exact ⟨rfl, rfl⟩
            · rw [if_neg hlen] at h
              cases hjdx : pyIdx (imageRels hd.rels).length ii with
              | none => rw [hjdx] at h; exact Except.noConfusion h
              | some j =>
                rw [hjdx] at h
                cases h
                refine ⟨rfl, ?_⟩
                rw [List.map_set]
                apply set_same_img
                rw [List.get?_map,
                  get?_getD_img ⟨none, none⟩ d.sections m (pyIdx_lt hidx)]
                dsimp only [Option.map]
                rw [hhd]
  · intro si ii res h
    unfold replace_footer_image at h
    by_cases hsec : (d.sections.length : Int) ≤ si
    · rw [if_pos hsec] at h
      cases h
      exact ⟨rfl, rfl⟩
    · rw [if_neg hsec] at h
      cases hread : fsRead fs path with
      | none => rw [hread] at h; cases h; exact ⟨rfl, rfl⟩
      | some data =>
        rw [hread] at h
        cases hidx : pyIdx d.sections.length si with
        | none => rw [hidx] at h; exact Except.noConfusion h
        | some m =>
          rw [hidx] at h
          dsimp only at h
          cases hft : (d.sections.getD m ⟨none, none⟩).footer with
          | none => rw [hft] at h; cases h; exact ⟨rfl, rfl⟩
          | some ft =>
            rw [hft] at h
            dsimp only at h
            by_cases hlen : ((imageRels ft.rels).length : Int) ≤ ii
            · rw [if_pos hlen] at h
              cases h
              exact ⟨rfl, rfl⟩
            · rw [if_neg hlen] at h
              cases hjdx : pyIdx (imageRels ft.rels).length ii with
              | none => rw [hjdx] at h; exact Except.noConfusion h
              | some j =>
                rw [hjdx] at h
                cases h
                refine ⟨rfl, ?_⟩
                rw [List.map_set]
                apply set_same_img
                rw [List.get?_map,
                  get?_getD_img ⟨none, none⟩ d.sections m (pyIdx_lt hidx)]
                dsimp only [Option.map]
                rw [hft]

/-- Witness for C7: replacing body image 0 of `imgDocC7` with `new.png`
succeeds and leaves sections, drawings and the relationship skeleton
unchanged, touching at most one relationship entry. -/
theorem media_swap_purity_witness :
    imgDocC7s.sections = imgDocC7.sections
    ∧ imgDocC7s.body.drawings = imgDocC7.body.drawings
    ∧ (imgDocC7s.body.rels.map fun e => (e.1, e.2.reltype))
        = (imgDocC7.body.rels.map fun e => (e.1, e.2.reltype))
    ∧ ∃ pos, ∀ i, i ≠ pos → imgDocC7s.body.rels.get? i = imgDocC7.body.rels.get? i :=
  (media_swap_purity imgDocC7 fsImg "new.png").1 0 (true, imgDocC7s) rfl

/-- **C8 counterexample** Replacing the header image with a `.webp` file —
an extension unknown to the content-type table — does not fail: the call
returns `true`, swaps the blob and keeps the stale content type, and the
document is changed, contradicting the claimed negative result with an
unchanged document. -/
theorem image_type_failure_counterexample :
    replace_header_image imgDocC8 fsImg 0 "new.webp" 0 = .ok (true, imgDocC8s)
    ∧ pathSuffixLower "new.webp" ∉ contentTypes.map Prod.fst
    ∧ imgDocC8s ≠ imgDocC8
    ∧ (imgDocC8s.sections.map fun s => s.header.map fun hd =>
          hd.rels.map fun e => e.2.target.content_type)
        = (imgDocC8.sections.map fun s => s.header.map fun hd =>
          hd.rels.map fun e => e.2.target.content_type) := by
  refine ⟨rfl, by decide, by decide, rfl⟩

/-- **C8 amended** The header replacer returns `False` with the document
unchanged when the section index is out of range, the new file is
unreadable, the resolved section has no header, or the image index is out
of range; an unrecognized file extension however is not a failure: the
replacement still happens and merely skips the content-type update, leaving
the old content type on the new blob. -/
theorem replace_failure_modes (d : ImgDoc) (fs : FS) (path : String) (si ii : Int) :
    ((d.sections.length : Int) ≤ si →
        replace_header_image d fs si path ii = .ok (false, d))
    ∧ (si < (d.sections.length : Int) → fsRead fs path = none →
        replace_header_image d fs si path ii = .ok (false, d))
    ∧ (∀ m, fsRead fs path ≠ none → pyIdx d.sections.length si = some m →
        (d.sections.getD m ⟨none, none⟩).header = none →
        replace_header_image d fs si path ii = .ok (false, d))
    ∧ (∀ m hd, fsRead fs path ≠ none → pyIdx d.sections.length si = some m →
        (d.sections.getD m ⟨none, none⟩).header = some hd →
        ((imageRels hd.rels).length : Int) ≤ ii →
        replace_header_image d fs si path ii = .ok (false, d))
    ∧ (∀ (data : Bytes) (mt : Media),
        contentTypes.find? (fun e => e.1 = pathSuffixLower path) = none →
        swapMedia data path mt = { mt with blob := data }) := by
  refine ⟨?_, ?_, ?_, ?_, ?_⟩
  · intro hge
    unfold replace_header_image
    rw [if_pos hge]
  · intro hlt hread
    unfold replace_header_image
    rw [if_neg (not_le.mpr hlt), hread]
  · intro m hread hidx hhd
    obtain ⟨data, hdata⟩ := Option.ne_none_iff_exists'.mp hread
    unfold replace_header_image
    rw [if_neg (not_le.mpr (pyIdx_int_lt hidx))]
    rw [hdata]
    dsimp only
    rw [hidx]
    dsimp only
    rw [hhd]
  · intro m hd hread hidx hhd hge
    obtain ⟨data, hdata⟩ := Option.ne_none_iff_exists'.mp hread
    unfold replace_header_image
    rw [if_neg (not_le.mpr (pyIdx_int_lt hidx))]
    rw [hdata]
    dsimp only
    rw [hidx]
    dsimp only
    rw [hhd]
    dsimp only
    rw [if_pos hge]
  · intro data mt hct
    unfold swapMedia update_content_type
    rw [hct]
    rfl

/-- Witness for the amended C8: section 5 out of range, a missing file and
image index 3 out of range each return false with the document unchanged,
and an unknown `.webp` extension swaps the blob keeping the content type. -/
theorem replace_failure_modes_witness :
    replace_header_image imgDocC8 fsImg 5 "new.png" 0 = .ok (false, imgDocC8)
    ∧ replace_header_image imgDocC8 fsImg 0 "missing.png" 0 = .ok (false, imgDocC8)
    ∧ replace_header_image imgDocC8 fsImg 0 "new.png" 3 = .ok (false, imgDocC8)
    ∧ swapMedia [9] "new.webp" mediaC8 = { mediaC8 with blob := [9] } :=
  ⟨(replace_failure_modes imgDocC8 fsImg "new.png" 5 0).1 (by decide),
   (replace_failure_modes imgDocC8 fsImg "missing.png" 0 0).2.1 (by decide) rfl,
   (replace_failure_modes imgDocC8 fsImg "new.png" 0 3).2.2.2.1 0 hdC8 (by decide) rfl rfl
     (by decide),
   (replace_failure_modes imgDocC8 fsImg "new.webp" 0 0).2.2.2.2 [9] mediaC8 rfl⟩

/-- **C9** Batch isolation: every key of the input mapping gets a boolean
result (in order), and around any key whose single-item result is `false`
the batch decomposes as: the results before it, `false` for the key itself,
and the results of the remaining keys run from the document exactly as the
earlier keys left it — the failing key neither aborts nor affects the
rest. -/
theorem batch_isolation (d : ImgDoc) (fs : FS) (m : List (String × String)) :
    (replace_images_batch d fs m).1.map Prod.fst = m.map Prod.fst
    ∧ ∀ (m1 m2 : List (String × String)) (key path : String),
        m = m1 ++ (key, path) :: m2 →
        (batchOne (replace_images_batch d fs m1).2 fs key path).1 = false →
        (replace_images_batch d fs m).1
          = (replace_images_batch d fs m1).1 ++ (key, false)
              :: (replace_images_batch (replace_images_batch d fs m1).2 fs m2).1
        ∧ (replace_images_batch d fs m).2
          = (replace_images_batch (replace_images_batch d fs m1).2 fs m2).2 := by
  refine ⟨replace_images_batch_keys fs m d, ?_⟩
  intro m1 m2 key path hm hfail
  subst hm
  rw [replace_images_batch_append fs m1 d ((key, path) :: m2)]
  have hdoc : (batchOne (replace_images_batch d fs m1).2 fs key path).2
      = (replace_images_batch d fs m1).2 := batchOne_false_snd _ fs key path hfail
  constructor
  · show (replace_images_batch d fs m1).1
        ++ ((key, (batchOne (replace_images_batch d fs m1).2 fs key path).1)
            :: (replace_images_batch
                (batchOne (replace_images_batch d fs m1).2 fs key path).2 fs m2).1)
      = _
    rw [hfail, hdoc]
  · show (replace_images_batch
        (batchOne (replace_images_batch d fs m1).2 fs key path).2 fs m2).2 = _
    rw [hdoc]

/-- Witness for C9 at Scenario 5: the keys body_0 and header_0_0 succeed,
the out-of-range body_5 alone yields false, and every key of the batch gets
a result. -/
theorem batch_isolation_witness :
    (replace_images_batch imgDocC9 fsImg batchC9).1.map Prod.fst = batchC9.map Prod.fst
    ∧ (replace_images_batch imgDocC9 fsImg batchC9).1
        = (replace_images_batch imgDocC9 fsImg batchC9pre).1 ++ ("body_5", false)
            :: (replace_images_batch
                (replace_images_batch imgDocC9 fsImg batchC9pre).2 fsImg []).1
    ∧ (replace_images_batch imgDocC9 fsImg batchC9pre).1
        = [("body_0", true), ("header_0_0", true)] := by
  have h := batch_isolation imgDocC9 fsImg batchC9
  refine ⟨h.1, (h.2 batchC9pre [] "body_5" "new.png" rfl (by rfl)).1, by rfl⟩

end Docx
